import Mathlib

/-!
Verification of the TileDB recursion-safe thread pool and its cancellation
layer (`tiledb/common/thread_pool`, `tiledb/sm/misc/cancelable_tasks`),
against the behavioral specification and the reference test suite
`tiledb/common/thread_pool/test/unit_thread_pool.cc`.

The thread pool implementation itself is not among the sampled source
files (only its test surface is), so the scheduler is modelled from the
specification: a small-step machine over explicit state.  Pools own FIFO
queues and fixed worker sets; a worker executes queued closures; a task
that spawns subtasks and waits on them becomes a *frame* on its worker's
stack, and while its waited subtasks are unfinished the worker pops and
executes further tasks from its own pool's queue (the recursion-safe wait
protocol of spec section 4.1).  Scheduling between workers is an arbitrary
oracle `sched : Nat → Nat`, so every theorem quantified over `sched` holds
for every interleaving the model can express.
-/

namespace TileDB

/-- Modelled from the spec: status codes of the `Status` outcome type
(section 7 error taxonomy): success, generic error (`Status_Error`),
task error (`Status_TaskError`), tile error (`Status_TileError`), and the
distinguished cancelled outcome of the cancellation registry. -/
inductive StatusCode where
  | ok
  | error
  | taskError
  | tileError
  | cancelled
deriving DecidableEq

/-- Modelled from the spec: a task outcome, a code together with a
description string (the `Status` class of the source). -/
structure Status where
  code : StatusCode
  msg : String
deriving DecidableEq

/-- The success status, `Status::Ok()`. -/
def Status.Ok : Status := ⟨StatusCode.ok, ""⟩

/-- The `st.ok()` check of the source. -/
def Status.ok (s : Status) : Bool := s.code == StatusCode.ok

/-- The `Status_Error(msg)` constructor used by the tests. -/
def Status_Error (m : String) : Status := ⟨StatusCode.error, m⟩

/-- The `Status_TaskError(msg)` constructor used by the tests. -/
def Status_TaskError (m : String) : Status := ⟨StatusCode.taskError, m⟩

/-- The `Status_TileError(msg)` constructor used by the tests. -/
def Status_TileError (m : String) : Status := ⟨StatusCode.tileError, m⟩

/-- Modelled from the spec: what a closure body can do when executed:
return a status, raise a string exception, or raise a status exception
(the three behaviors exercised by the test suite). -/
inductive RunResult where
  | ret (s : Status)
  | throwStr (m : String)
  | throwStatus (s : Status)
deriving DecidableEq

/-- Modelled from the spec: the worker loop's exception-to-status
conversion.  A returned status passes through; a raised string exception
is caught and converted to a task error carrying a description
(`"Caught " ++ msg`, as observed by the test `Status_TaskError("Caught
Unripe banana")`); a raised status exception is caught and recorded as
that status. -/
def resultToStatus : RunResult → Status
  | RunResult.ret s => s
  | RunResult.throwStr m => Status_TaskError ("Caught " ++ m)
  | RunResult.throwStatus s => s

/-- Modelled from the spec: a `ThreadPool::Task` handle is either invalid
(returned by submission to a zero-thread pool) or a valid reference to a
task identified by its id. -/
inductive Task where
  | invalid
  | valid (id : Nat)
deriving DecidableEq

/-- The `task.valid()` check of the source. -/
def Task.isValid : Task → Bool
  | Task.invalid => false
  | Task.valid _ => true

/-- Modelled from the spec: the pool-visible shape of a closure over
shared state `σ`: either a plain body (run atomically by a worker), or a
body that submits subtask closures to pool `pl`, waits on all of them
(the recursive `execute` + `wait_all` pattern of the tests), and then
runs `after` as its own completion. -/
inductive Prog (σ : Type) where
  | act (f : σ → σ × RunResult)
  | spawnWait (pl : Nat) (subs : List (Prog σ)) (after : σ → σ × RunResult)

mutual

/-- Size of a program: one unit per task (used as the termination
measure of the scheduler). -/
def Prog.size {σ : Type} : Prog σ → Nat
  | Prog.act _ => 1
  | Prog.spawnWait _ subs _ => 1 + Prog.sizeList subs

/-- Total size of a list of programs. -/
def Prog.sizeList {σ : Type} : List (Prog σ) → Nat
  | [] => 0
  | p :: ps => Prog.size p + Prog.sizeList ps

end

/-- A queued task: its id, the pool it was submitted to, and its
program. -/
structure QTask (σ : Type) where
  id : Nat
  pool : Nat
  prog : Prog σ

/-- A wait frame on a worker's stack: the id of the task that is
waiting, the global push counter value at the moment it was pushed, the
ids of the (valid) subtasks it waits for, and its completion body. -/
structure Frame (σ : Type) where
  id : Nat
  pushIdx : Nat
  waiting : List Nat
  after : σ → σ × RunResult

/-- A worker thread: the pool it belongs to and its stack of wait
frames (head is the top, the innermost nested wait). -/
structure Worker (σ : Type) where
  pool : Nat
  stack : List (Frame σ)

/-- Default worker used for total list indexing. -/
def defaultWorker (σ : Type) : Worker σ := ⟨0, []⟩

/-- The machine state: shared memory, the ready queues of all pools
(one flat list, tasks tagged with their pool), the workers of all pools,
the record of resolved task outcomes, the raw execution log, and the
fresh-id / push counters. -/
structure MState (σ : Type) where
  shared : σ
  queue : List (QTask σ)
  workers : List (Worker σ)
  statuses : List (Nat × Status)
  log : List (Nat × RunResult)
  nextId : Nat
  nextPush : Nat

/-- Whether pool `pl` of state `s` has at least one worker thread. -/
def MState.poolHasWorker {σ : Type} (s : MState σ) (pl : Nat) : Bool :=
  s.workers.any (fun wk => wk.pool == pl)

/-- Modelled from the spec: `ThreadPool::execute`.  Submitting a closure
to a pool with zero worker threads is a logged no-op returning an
invalid handle; otherwise the task is enqueued with a fresh id and a
valid handle is returned immediately. -/
def MState.execute {σ : Type} (s : MState σ) (pl : Nat) (p : Prog σ) :
    MState σ × Task :=
  if s.poolHasWorker pl then
    ({ s with
        queue := s.queue ++ [⟨s.nextId, pl, p⟩],
        nextId := s.nextId + 1 },
      Task.valid s.nextId)
  else
    (s, Task.invalid)

/-- Submit a list of closures in order, collecting the handles. -/
def MState.executeMany {σ : Type} (s : MState σ) (pl : Nat) :
    List (Prog σ) → MState σ × List Task
  | [] => (s, [])
  | p :: ps =>
    let r := s.execute pl p
    let rest := r.1.executeMany pl ps
    (rest.1, r.2 :: rest.2)

/-- The ids of the valid handles in a list. -/
def validIds : List Task → List Nat
  | [] => []
  | Task.invalid :: hs => validIds hs
  | Task.valid i :: hs => i :: validIds hs

/-- A fresh pool configuration: shared state `sh` and, for every pool
index `pl < ks.length`, `ks[pl]` worker threads (the `init(n)` calls of
the tests), with empty queue and no resolved tasks. -/
def mkState {σ : Type} (sh : σ) (ks : List Nat) : MState σ :=
  { shared := sh,
    queue := [],
    workers :=
      ((List.range ks.length).map
        (fun pl => List.replicate (ks.getD pl 0) (⟨pl, []⟩ : Worker σ))).flatten,
    statuses := [],
    log := [],
    nextId := 0,
    nextPush := 0 }

/-- Execute a plain body on the shared state: record the raw result in
the log and the converted status in the outcome record.  The conversion
is the worker loop's catch: exceptions become failure statuses and never
propagate (the machine is total). -/
def runBody {σ : Type} (s : MState σ) (i : Nat) (f : σ → σ × RunResult) :
    MState σ :=
  let r := f s.shared
  { s with
      shared := r.1,
      log := s.log ++ [(i, r.2)],
      statuses := s.statuses ++ [(i, resultToStatus r.2)] }

/-- Replace worker `w`'s stack. -/
def MState.setStack {σ : Type} (s : MState σ) (w : Nat)
    (st : List (Frame σ)) : MState σ :=
  { s with
      workers :=
        s.workers.set w { s.workers.getD w (defaultWorker σ) with stack := st } }

/-- Whether task `i` has a resolved outcome in `s`. -/
def MState.isDone {σ : Type} (s : MState σ) (i : Nat) : Bool :=
  (s.statuses.lookup i).isSome

/-- Whether all of the waited-on task ids are resolved. -/
def MState.allDone {σ : Type} (s : MState σ) (l : List Nat) : Bool :=
  l.all (fun i => s.isDone i)

/-- Pop the first queued task satisfying `p`, returning it and the rest
of the queue. -/
def popFirst {α : Type} (p : α → Bool) : List α → Option (α × List α)
  | [] => none
  | x :: xs =>
    if p x then some (x, xs)
    else (popFirst p xs).map (fun r => (r.1, x :: r.2))

/-- A waiting task's frame is finished: run its completion body and pop
the frame from worker `w`'s stack. -/
def doFinish {σ : Type} (s : MState σ) (w : Nat) (F : Frame σ)
    (rest : List (Frame σ)) : MState σ :=
  runBody (s.setStack w rest) F.id F.after

/-- Worker `w` starts a spawn-and-wait task with id `id0` (its subtasks
and completion body given) on state `s0`: the subtasks are submitted
through `execute` (so a target pool with zero workers yields invalid
handles, which are not waited on) and a wait frame for the valid ones is
pushed on `w`'s stack, stamped with the global push counter. -/
def doSpawn {σ : Type} (s0 : MState σ) (w : Nat) (id0 pl : Nat)
    (subs : List (Prog σ)) (after : σ → σ × RunResult) : MState σ :=
  let r := MState.executeMany s0 pl subs
  let F : Frame σ := ⟨id0, r.1.nextPush, validIds r.2, after⟩
  { r.1.setStack w (F :: (r.1.workers.getD w (defaultWorker σ)).stack) with
      nextPush := r.1.nextPush + 1 }

/-- Worker `w` starts the task `t` just popped from the queue (`q'` is
the remaining queue).  A plain body runs to completion at once; a
spawn-and-wait body suspends as a new wait frame. -/
def startTask {σ : Type} (s : MState σ) (w : Nat) (t : QTask σ)
    (q' : List (QTask σ)) : MState σ :=
  match t.prog with
  | Prog.act f => runBody { s with queue := q' } t.id f
  | Prog.spawnWait pl subs after => doSpawn { s with queue := q' } w t.id pl subs after

/-- Modelled from the spec: one scheduling step of worker `w`.  A worker
whose top frame has all its waited subtasks resolved completes that
frame.  Otherwise — idle, or waiting on unfinished subtasks — it
attempts to pop one task from its own pool's queue and execute it (the
recursion-safe wait protocol: a blocked worker services pending work
instead of idling).  `none` means the worker has nothing it can do. -/
def workerAction {σ : Type} (s : MState σ) (w : Nat) : Option (MState σ) :=
  let wk := s.workers.getD w (defaultWorker σ)
  match wk.stack with
  | F :: rest =>
    if s.allDone F.waiting then some (doFinish s w F rest)
    else
      match popFirst (fun t => t.pool == wk.pool) s.queue with
      | some r => some (startTask s w r.1 r.2)
      | none => none
  | [] =>
    match popFirst (fun t => t.pool == wk.pool) s.queue with
    | some r => some (startTask s w r.1 r.2)
    | none => none

/-- The worker indices that currently have an enabled action. -/
def enabledWorkers {σ : Type} (s : MState σ) : List Nat :=
  (List.range s.workers.length).filter (fun w => (workerAction s w).isSome)

/-- One machine step under scheduling choice `c`: among the workers with
an enabled action, the oracle picks one; `none` when no worker can act
(all pools quiescent or blocked). -/
def step {σ : Type} (c : Nat) (s : MState σ) : Option (MState σ) :=
  match enabledWorkers s with
  | [] => none
  | w :: ws => workerAction s ((w :: ws).getD (c % (ws.length + 1)) w)

/-- Run the machine for at most `fuel` steps under schedule oracle
`sched`, starting at step counter `t`; stops early when no worker can
act. -/
def run {σ : Type} (sched : Nat → Nat) : Nat → Nat → MState σ → MState σ
  | 0, _, s => s
  | Nat.succ fuel, t, s =>
    match step (sched t) s with
    | none => s
    | some s' => run sched fuel (t + 1) s'

/-- The outcome a caller observes for a handle: an invalid handle is an
immediately-resolved success (spec section 4.1: no-op submissions are
not waiting errors); a valid handle reads its task's resolved status. -/
def MState.statusOf {σ : Type} (s : MState σ) : Task → Status
  | Task.invalid => Status.Ok
  | Task.valid i => (s.statuses.lookup i).getD Status.Ok

/-- Modelled from the spec: `ThreadPool::wait_all_status`, the per-handle
outcome vector, strictly positional with the input handles. -/
def MState.wait_all_status {σ : Type} (s : MState σ) (hs : List Task) :
    List Status :=
  hs.map s.statusOf

/-- First non-ok status of a list, or `Status::Ok()` when all are ok. -/
def firstError : List Status → Status
  | [] => Status.Ok
  | st :: rest => if st.ok then firstError rest else st

/-- Modelled from the spec: `ThreadPool::wait_all`, the single
aggregated status: the first failure of the per-handle outcome vector in
handle order (spec P7: the strict submission-order failure-priority
variant, which the test suite requires for index-determined failures),
`Ok` when every waited-on task succeeded. -/
def MState.wait_all {σ : Type} (s : MState σ) (hs : List Task) : Status :=
  firstError (s.wait_all_status hs)

/-- All live wait frames across all workers of all pools. -/
def frames {σ : Type} (s : MState σ) : List (Frame σ) :=
  (s.workers.map Worker.stack).flatten

/-- The ids of the currently queued tasks. -/
def queuedIds {σ : Type} (s : MState σ) : List Nat :=
  s.queue.map QTask.id

/-- The ids of the tasks currently suspended as wait frames. -/
def frameIds {σ : Type} (s : MState σ) : List Nat :=
  (frames s).map Frame.id

/-- The ids of the tasks with a resolved outcome. -/
def statusIds {σ : Type} (s : MState σ) : List Nat :=
  s.statuses.map Prod.fst

/-- Every id the machine has handed out lives in exactly one of the
three places: the queue, a wait frame, or the outcome record. -/
def allIds {σ : Type} (s : MState σ) : List Nat :=
  queuedIds s ++ (frameIds s ++ statusIds s)

/-- Total program size of a task list. -/
def sizeSum {σ : Type} (l : List (QTask σ)) : Nat :=
  (l.map (fun t => t.prog.size)).sum

/-- The termination measure of the scheduler: queued work counts
double, each live frame counts once; every enabled worker action
strictly decreases it. -/
def MState.work {σ : Type} (s : MState σ) : Nat :=
  2 * sizeSum s.queue + (frames s).length

/-- The machine invariant.  `queue_pool`: queued tasks only ever target
pools that have a worker (submission to an empty pool is a no-op).
`push_lt`: frame stamps are below the push counter.  `stack_sorted`:
within a worker's stack, stamps strictly decrease downward (the top
frame is the most recent).  `waiting_ok`: a waited-on subtask is
resolved, or still queued, or suspended as a strictly more recent
frame.  `ids_lt`/`ids_nodup`/`ids_cover`: every handed-out id is below
the id counter and sits in exactly one of queue/frames/outcomes.
`log_statuses`: the outcome record is the exception-converted image of
the raw execution log. -/
structure Inv {σ : Type} (s : MState σ) : Prop where
  queue_pool : ∀ t ∈ s.queue, s.poolHasWorker t.pool = true
  push_lt : ∀ F ∈ frames s, F.pushIdx < s.nextPush
  stack_sorted : ∀ wk ∈ s.workers,
    (wk.stack.map Frame.pushIdx).Pairwise (fun a b => b < a)
  waiting_ok : ∀ F ∈ frames s, ∀ i ∈ F.waiting,
    s.isDone i = true ∨ i ∈ queuedIds s ∨
      ∃ G ∈ frames s, G.id = i ∧ F.pushIdx < G.pushIdx
  ids_lt : ∀ id ∈ allIds s, id < s.nextId
  ids_nodup : (allIds s).Nodup
  ids_cover : ∀ id, id < s.nextId → id ∈ allIds s
  log_statuses : s.statuses = s.log.map (fun p => (p.1, resultToStatus p.2))

theorem Prog.size_pos {σ : Type} (p : Prog σ) : 1 ≤ p.size := by
  cases p <;> simp [Prog.size]

theorem sizeSum_append {σ : Type} (l₁ l₂ : List (QTask σ)) :
    sizeSum (l₁ ++ l₂) = sizeSum l₁ + sizeSum l₂ := by
  simp [sizeSum]

theorem sizeSum_perm {σ : Type} {l₁ l₂ : List (QTask σ)} (h : l₁.Perm l₂) :
    sizeSum l₁ = sizeSum l₂ :=
  (h.map _).sum_eq

theorem popFirst_perm {α : Type} {p : α → Bool} :
    ∀ {l : List α} {x : α} {l' : List α},
      popFirst p l = some (x, l') → l.Perm (x :: l')
  | [], x, l', h => by simp [popFirst] at h
  | a :: as, x, l', h => by
    simp only [popFirst] at h
    by_cases hp : p a
    · rw [if_pos hp] at h
      obtain ⟨h1, h2⟩ := Prod.mk.injEq .. ▸ Option.some.inj h
      subst h1; subst h2
      exact List.Perm.refl _
    · rw [if_neg hp] at h
      match hr : popFirst p as with
      | none => rw [hr] at h; simp at h
      | some r =>
        rw [hr, Option.map_some'] at h
        obtain ⟨h1, h2⟩ := Prod.mk.injEq .. ▸ Option.some.inj h
        have hperm := @popFirst_perm _ p as r.1 r.2 (by rw [hr])
        subst h1
        rw [← h2]
        exact (List.Perm.cons a hperm).trans (List.Perm.swap _ _ _)

theorem popFirst_prop {α : Type} {p : α → Bool} :
    ∀ {l : List α} {x : α} {l' : List α},
      popFirst p l = some (x, l') → p x = true
  | [], x, l', h => by simp [popFirst] at h
  | a :: as, x, l', h => by
    simp only [popFirst] at h
    by_cases hp : p a
    · rw [if_pos hp] at h
      obtain ⟨h1, _⟩ := Prod.mk.injEq .. ▸ Option.some.inj h
      subst h1; exact hp
    · rw [if_neg hp] at h
      match hr : popFirst p as with
      | none => rw [hr] at h; simp at h
      | some r =>
        rw [hr, Option.map_some'] at h
        obtain ⟨h1, _⟩ := Prod.mk.injEq .. ▸ Option.some.inj h
        have := @popFirst_prop _ p as r.1 r.2 (by rw [hr])
        subst h1; exact this

theorem popFirst_isSome {α : Type} {p : α → Bool} :
    ∀ {l : List α} {x : α}, x ∈ l → p x = true →
      (popFirst p l).isSome = true
  | [], x, hx, _ => by simp at hx
  | a :: as, x, hx, hp => by
    simp only [popFirst]
    by_cases hpa : p a
    · simp [hpa]
    · simp only [hpa, if_false]
      rcases List.mem_cons.mp hx with h | h
      · subst h; exact absurd hp hpa
      · have := popFirst_isSome h hp
        match hr : popFirst p as with
        | none => rw [hr] at this; simp at this
        | some r => simp

theorem setStack_queue {σ : Type} (s : MState σ) (w : Nat)
    (st : List (Frame σ)) : (s.setStack w st).queue = s.queue := rfl

theorem setStack_statuses {σ : Type} (s : MState σ) (w : Nat)
    (st : List (Frame σ)) : (s.setStack w st).statuses = s.statuses := rfl

theorem setStack_log {σ : Type} (s : MState σ) (w : Nat)
    (st : List (Frame σ)) : (s.setStack w st).log = s.log := rfl

theorem setStack_nextId {σ : Type} (s : MState σ) (w : Nat)
    (st : List (Frame σ)) : (s.setStack w st).nextId = s.nextId := rfl

theorem setStack_nextPush {σ : Type} (s : MState σ) (w : Nat)
    (st : List (Frame σ)) : (s.setStack w st).nextPush = s.nextPush := rfl

theorem runBody_queue {σ : Type} (s : MState σ) (i : Nat)
    (f : σ → σ × RunResult) : (runBody s i f).queue = s.queue := rfl

theorem runBody_workers {σ : Type} (s : MState σ) (i : Nat)
    (f : σ → σ × RunResult) : (runBody s i f).workers = s.workers := rfl

theorem runBody_statuses {σ : Type} (s : MState σ) (i : Nat)
    (f : σ → σ × RunResult) :
    (runBody s i f).statuses =
      s.statuses ++ [(i, resultToStatus (f s.shared).2)] := rfl

theorem runBody_log {σ : Type} (s : MState σ) (i : Nat)
    (f : σ → σ × RunResult) :
    (runBody s i f).log = s.log ++ [(i, (f s.shared).2)] := rfl

theorem runBody_nextId {σ : Type} (s : MState σ) (i : Nat)
    (f : σ → σ × RunResult) : (runBody s i f).nextId = s.nextId := rfl

theorem runBody_nextPush {σ : Type} (s : MState σ) (i : Nat)
    (f : σ → σ × RunResult) : (runBody s i f).nextPush = s.nextPush := rfl

theorem runBody_frames {σ : Type} (s : MState σ) (i : Nat)
    (f : σ → σ × RunResult) : frames (runBody s i f) = frames s := rfl

theorem workers_decomp {σ : Type} {s : MState σ} {w : Nat}
    (h : w < s.workers.length) :
    s.workers = s.workers.take w ++
      s.workers.getD w (defaultWorker σ) :: s.workers.drop (w + 1) := by
  conv_lhs => rw [← List.take_append_drop w s.workers]
  rw [List.drop_eq_getElem_cons h, List.getD_eq_getElem?_getD,
    List.getElem?_eq_getElem h]
  rfl

theorem setStack_workers {σ : Type} {s : MState σ} {w : Nat}
    (h : w < s.workers.length) (st : List (Frame σ)) :
    (s.setStack w st).workers = s.workers.take w ++
      ({ s.workers.getD w (defaultWorker σ) with stack := st } : Worker σ) ::
        s.workers.drop (w + 1) := by
  show s.workers.set w _ = _
  rw [List.set_eq_take_cons_drop _ h]

/-- The frames of the workers before index `w` of a worker list. -/
def framesPre {σ : Type} (ws : List (Worker σ)) (w : Nat) : List (Frame σ) :=
  ((ws.take w).map Worker.stack).flatten

/-- The frames of the workers after index `w` of a worker list. -/
def framesSuf {σ : Type} (ws : List (Worker σ)) (w : Nat) : List (Frame σ) :=
  ((ws.drop (w + 1)).map Worker.stack).flatten

theorem frames_decomp {σ : Type} {s : MState σ} {w : Nat}
    (h : w < s.workers.length) :
    frames s = framesPre s.workers w ++
      ((s.workers.getD w (defaultWorker σ)).stack ++ framesSuf s.workers w) := by
  unfold frames framesPre framesSuf
  conv_lhs => rw [workers_decomp h]
  simp

theorem frames_setStack {σ : Type} {s : MState σ} {w : Nat}
    (h : w < s.workers.length) (st : List (Frame σ)) :
    frames (s.setStack w st) =
      framesPre s.workers w ++ (st ++ framesSuf s.workers w) := by
  unfold frames framesPre framesSuf
  rw [setStack_workers h]
  simp

theorem poolHasWorker_setStack {σ : Type} {s : MState σ} {w : Nat}
    (h : w < s.workers.length) (st : List (Frame σ)) :
    (s.setStack w st).poolHasWorker = s.poolHasWorker := by
  funext pl
  show ((s.setStack w st).workers.any _) = (s.workers.any _)
  rw [setStack_workers h]
  conv_rhs => rw [workers_decomp h]
  simp

theorem mem_workers_setStack {σ : Type} {s : MState σ} {w : Nat}
    {st : List (Frame σ)} {wk : Worker σ} (h : w < s.workers.length)
    (hm : wk ∈ (s.setStack w st).workers) :
    wk ∈ s.workers ∨
      wk = { s.workers.getD w (defaultWorker σ) with stack := st } := by
  rw [setStack_workers h] at hm
  rcases List.mem_append.mp hm with h1 | h1
  · exact Or.inl (List.mem_of_mem_take h1)
  · rcases List.mem_cons.mp h1 with h2 | h2
    · exact Or.inr h2
    · exact Or.inl (List.mem_of_mem_drop h2)

theorem getD_mem_workers {σ : Type} {s : MState σ} {w : Nat}
    (h : w < s.workers.length) :
    s.workers.getD w (defaultWorker σ) ∈ s.workers := by
  rw [List.getD_eq_getElem?_getD, List.getElem?_eq_getElem h]
  exact List.getElem_mem h

theorem lookup_isSome_iff {β : Type} :
    ∀ (l : List (Nat × β)) (i : Nat),
      (l.lookup i).isSome = true ↔ i ∈ l.map Prod.fst
  | [], i => by simp [List.lookup]
  | (a, b) :: l, i => by
    by_cases h : i = a
    · subst h; simp [List.lookup]
    · have hba : (i == a) = false := beq_false_of_ne h
      simp [List.lookup, hba, lookup_isSome_iff l i, h]

theorem isDone_iff {σ : Type} (s : MState σ) (i : Nat) :
    s.isDone i = true ↔ i ∈ statusIds s :=
  lookup_isSome_iff s.statuses i

theorem executeMany_spec {σ : Type} (pl : Nat) :
    ∀ (ps : List (Prog σ)) (s : MState σ), ∃ new : List (QTask σ),
      (s.executeMany pl ps).1 =
        { s with queue := s.queue ++ new, nextId := s.nextId + new.length } ∧
      new.map QTask.id = List.range' s.nextId new.length ∧
      validIds (s.executeMany pl ps).2 = new.map QTask.id ∧
      (∀ t ∈ new, t.pool = pl ∧ s.poolHasWorker t.pool = true) ∧
      sizeSum new ≤ Prog.sizeList ps
  | [], s => by
    refine ⟨[], ?_, by simp, by simp [MState.executeMany, validIds], by simp,
      by simp [sizeSum, Prog.sizeList]⟩
    simp [MState.executeMany]
  | p :: ps, s => by
    show ∃ new,
      ((s.execute pl p).1.executeMany pl ps).1 = _ ∧ _ ∧
        validIds ((s.execute pl p).2 :: ((s.execute pl p).1.executeMany pl ps).2) = _ ∧ _ ∧ _
    by_cases hp : s.poolHasWorker pl = true
    · have hex : s.execute pl p =
        (({ s with
            queue := s.queue ++ [⟨s.nextId, pl, p⟩],
            nextId := s.nextId + 1 } : MState σ), Task.valid s.nextId) := by
        simp [MState.execute, hp]
      obtain ⟨new', h1, h2, h3, h4, h5⟩ :=
        executeMany_spec pl ps (s.execute pl p).1
      refine ⟨⟨s.nextId, pl, p⟩ :: new', ?_, ?_, ?_, ?_, ?_⟩
      · rw [h1, hex]
        simp [List.append_assoc]
        omega
      · rw [hex] at h2
        show s.nextId :: List.map QTask.id new' =
          List.range' s.nextId (new'.length + 1)
        rw [List.range'_succ]
        exact congrArg (List.cons s.nextId) h2
      · rw [hex] at h3 ⊢
        simp only [validIds, h3, List.map_cons]
      · intro t ht
        rcases List.mem_cons.mp ht with h | h
        · subst h; exact ⟨rfl, hp⟩
        · have := h4 t h
          rw [hex] at this
          exact this
      · show sizeSum (_ :: new') ≤ Prog.sizeList (p :: ps)
        have : sizeSum (⟨s.nextId, pl, p⟩ :: new') = p.size + sizeSum new' := by
          simp [sizeSum]
        rw [this, Prog.sizeList]
        omega
    · have hex : s.execute pl p = (s, Task.invalid) := by
        simp [MState.execute, hp]
      rw [hex]
      obtain ⟨new', h1, h2, h3, h4, h5⟩ := executeMany_spec pl ps s
      refine ⟨new', h1, h2, ?_, h4, ?_⟩
      · simpa [validIds] using h3
      · have := Prog.size_pos p
        rw [Prog.sizeList]
        omega

theorem executeMany_workers {σ : Type} (pl : Nat) :
    ∀ (ps : List (Prog σ)) (s : MState σ),
      (s.executeMany pl ps).1.workers = s.workers
  | [], s => rfl
  | p :: ps, s => by
    show ((s.execute pl p).1.executeMany pl ps).1.workers = _
    rw [executeMany_workers pl ps]
    by_cases hp : s.poolHasWorker pl = true <;> simp [MState.execute, hp]

theorem workerAction_cases {σ : Type} {s s' : MState σ} {w : Nat}
    (h : workerAction s w = some s') :
    (∃ F rest, (s.workers.getD w (defaultWorker σ)).stack = F :: rest ∧
      s.allDone F.waiting = true ∧ s' = doFinish s w F rest) ∨
    (∃ t q',
      popFirst (fun u => u.pool == (s.workers.getD w (defaultWorker σ)).pool)
        s.queue = some (t, q') ∧ s' = startTask s w t q') := by
  simp only [workerAction] at h
  split at h
  · rename_i F rest hst
    split at h
    · rename_i hdone
      exact Or.inl ⟨F, rest, hst, hdone, (Option.some.inj h).symm⟩
    · split at h
      · rename_i r hpop
        exact Or.inr ⟨r.1, r.2, by rw [hpop], (Option.some.inj h).symm⟩
      · exact absurd h (by simp)
  · rename_i hst
    split at h
    · rename_i r hpop
      exact Or.inr ⟨r.1, r.2, by rw [hpop], (Option.some.inj h).symm⟩
    · exact absurd h (by simp)

theorem work_doFinish {σ : Type} {s : MState σ} {w : Nat} {F : Frame σ}
    {rest : List (Frame σ)} (hw : w < s.workers.length)
    (hst : (s.workers.getD w (defaultWorker σ)).stack = F :: rest) :
    (doFinish s w F rest).work < s.work := by
  have h1 : frames (doFinish s w F rest) =
      framesPre s.workers w ++ (rest ++ framesSuf s.workers w) := by
    show frames (runBody (s.setStack w rest) F.id F.after) = _
    rw [runBody_frames, frames_setStack hw]
  have h2 : frames s =
      framesPre s.workers w ++ ((F :: rest) ++ framesSuf s.workers w) := by
    rw [frames_decomp hw, hst]
  have h3 : (doFinish s w F rest).queue = s.queue := rfl
  unfold MState.work
  rw [h1, h2, h3]
  simp

theorem doSpawn_eq {σ : Type} (s0 : MState σ) (w : Nat) (id0 pl : Nat)
    (subs : List (Prog σ)) (after : σ → σ × RunResult) :
    ∃ new : List (QTask σ),
      doSpawn s0 w id0 pl subs after =
        { MState.setStack
            ({ s0 with
                queue := s0.queue ++ new,
                nextId := s0.nextId + new.length } : MState σ) w
            (⟨id0, s0.nextPush, new.map QTask.id, after⟩ ::
              (s0.workers.getD w (defaultWorker σ)).stack) with
          nextPush := s0.nextPush + 1 } ∧
      new.map QTask.id = List.range' s0.nextId new.length ∧
      (∀ t ∈ new, t.pool = pl ∧ s0.poolHasWorker t.pool = true) ∧
      sizeSum new ≤ Prog.sizeList subs := by
  obtain ⟨new, h1, h2, h3, h4, h5⟩ := executeMany_spec pl subs s0
  refine ⟨new, ?_, h2, h4, h5⟩
  show { (MState.executeMany s0 pl subs).1.setStack w
      (⟨id0, (MState.executeMany s0 pl subs).1.nextPush,
        validIds (MState.executeMany s0 pl subs).2, after⟩ ::
        ((MState.executeMany s0 pl subs).1.workers.getD w
          (defaultWorker σ)).stack) with
    nextPush := (MState.executeMany s0 pl subs).1.nextPush + 1 } = _
  rw [h3, h1]

theorem work_startTask {σ : Type} {s : MState σ} {w : Nat} {t : QTask σ}
    {q' : List (QTask σ)} (hw : w < s.workers.length)
    (hperm : s.queue.Perm (t :: q')) :
    (startTask s w t q').work < s.work := by
  have hq : sizeSum s.queue = t.prog.size + sizeSum q' := by
    rw [sizeSum_perm hperm]
    simp [sizeSum]
  cases hp : t.prog with
  | act f =>
    have hgoal : startTask s w t q' = runBody { s with queue := q' } t.id f := by
      simp [startTask, hp]
    rw [hgoal]
    have hfr : frames (runBody { s with queue := q' } t.id f) = frames s := rfl
    unfold MState.work
    rw [hfr]
    have hsz := Prog.size_pos t.prog
    show 2 * sizeSum q' + (frames s).length < _
    omega
  | spawnWait pl subs after =>
    have hgoal : startTask s w t q' =
        doSpawn ({ s with queue := q' } : MState σ) w t.id pl subs after := by
      simp [startTask, hp]
    rw [hgoal]
    obtain ⟨new, h1, h2, h3, h5⟩ :=
      doSpawn_eq ({ s with queue := q' } : MState σ) w t.id pl subs after
    rw [h1]
    have hw' : w < (({ s with
        queue := q' ++ new,
        nextId := s.nextId + new.length } : MState σ)).workers.length := hw
    unfold MState.work
    rw [setStack_queue]
    have hfr := frames_setStack hw' (⟨t.id, s.nextPush, new.map QTask.id, after⟩ ::
        (s.workers.getD w (defaultWorker σ)).stack)
    have hfr2 : frames
        ({ MState.setStack
            ({ s with
                queue := q' ++ new,
                nextId := s.nextId + new.length } : MState σ) w
            (⟨t.id, s.nextPush, new.map QTask.id, after⟩ ::
              (s.workers.getD w (defaultWorker σ)).stack) with
          nextPush := s.nextPush + 1 } : MState σ) =
        framesPre s.workers w ++
          ((⟨t.id, s.nextPush, new.map QTask.id, after⟩ ::
            (s.workers.getD w (defaultWorker σ)).stack) ++
            framesSuf s.workers w) := hfr
    rw [hfr2]
    have hframes : frames s =
        framesPre s.workers w ++
          ((s.workers.getD w (defaultWorker σ)).stack ++ framesSuf s.workers w) :=
      frames_decomp hw
    have hsize : t.prog.size = 1 + Prog.sizeList subs := by
      rw [hp]; rfl
    have hnew : sizeSum (q' ++ new) = sizeSum q' + sizeSum new := sizeSum_append q' new
    show 2 * sizeSum (q' ++ new) + _ < _
    rw [hframes, hnew]
    simp only [List.length_append, List.length_cons]
    omega

theorem workerAction_work {σ : Type} {s s' : MState σ} {w : Nat}
    (hw : w < s.workers.length) (h : workerAction s w = some s') :
    s'.work < s.work := by
  rcases workerAction_cases h with ⟨F, rest, hst, _, hs'⟩ | ⟨t, q', hpop, hs'⟩
  · rw [hs']; exact work_doFinish hw hst
  · rw [hs']; exact work_startTask hw (popFirst_perm hpop)

theorem mem_enabledWorkers {σ : Type} {s : MState σ} {w : Nat} :
    w ∈ enabledWorkers s ↔
      w < s.workers.length ∧ (workerAction s w).isSome = true := by
  simp [enabledWorkers, List.mem_filter, List.mem_range]

theorem getD_cons_mem {α : Type} (x : α) (l : List α) (c : Nat) :
    (x :: l).getD (c % (l.length + 1)) x ∈ x :: l := by
  have h : c % (l.length + 1) < (x :: l).length := by
    simpa using Nat.mod_lt c (Nat.succ_pos l.length)
  rw [List.getD_eq_getElem?_getD, List.getElem?_eq_getElem h]
  exact List.getElem_mem h

theorem step_none {σ : Type} {c : Nat} {s : MState σ}
    (h : step c s = none) : enabledWorkers s = [] := by
  unfold step at h
  split at h
  · rename_i hen; exact hen
  · rename_i w ws hen
    have hmem : (w :: ws).getD (c % (ws.length + 1)) w ∈ w :: ws :=
      getD_cons_mem w ws c
    have hmem2 : (w :: ws).getD (c % (ws.length + 1)) w ∈ enabledWorkers s := by
      rw [hen]; exact hmem
    have := (mem_enabledWorkers.mp hmem2).2
    rw [h] at this
    simp at this

theorem step_some {σ : Type} {c : Nat} {s s' : MState σ}
    (h : step c s = some s') :
    ∃ w, w < s.workers.length ∧ workerAction s w = some s' := by
  unfold step at h
  split at h
  · simp at h
  · rename_i w ws hen
    refine ⟨(w :: ws).getD (c % (ws.length + 1)) w, ?_, h⟩
    have hmem : (w :: ws).getD (c % (ws.length + 1)) w ∈ w :: ws :=
      getD_cons_mem w ws c
    have hmem2 : (w :: ws).getD (c % (ws.length + 1)) w ∈ enabledWorkers s := by
      rw [hen]; exact hmem
    exact (mem_enabledWorkers.mp hmem2).1

theorem work_zero_enabled {σ : Type} {s : MState σ} (h : s.work = 0) :
    enabledWorkers s = [] := by
  have hq : s.queue = [] := by
    unfold MState.work at h
    cases hqq : s.queue with
    | nil => rfl
    | cons t rest =>
      exfalso
      have : sizeSum s.queue = t.prog.size + sizeSum rest := by
        rw [hqq]; simp [sizeSum]
      have := Prog.size_pos t.prog
      omega
  have hframes : frames s = [] := by
    unfold MState.work at h
    cases hf : frames s with
    | nil => rfl
    | cons F rest =>
      rw [hf] at h
      simp at h
  have hact : ∀ w, workerAction s w = none := by
    intro w
    have hstack : (s.workers.getD w (defaultWorker σ)).stack = [] := by
      by_cases hw : w < s.workers.length
      · have hmem := getD_mem_workers hw
        have : (s.workers.getD w (defaultWorker σ)).stack ∈
            s.workers.map Worker.stack := List.mem_map_of_mem _ hmem
        have hnil := List.flatten_eq_nil_iff.mp hframes
        exact hnil _ this
      · rw [List.getD_eq_getElem?_getD, List.getElem?_eq_none (by omega)]
        rfl
    simp only [workerAction, hstack, hq, popFirst]
  unfold enabledWorkers
  apply List.filter_eq_nil_iff.mpr
  intro w _
  simp [hact w]

theorem run_terminal {σ : Type} (sched : Nat → Nat) :
    ∀ (fuel t : Nat) (s : MState σ), s.work ≤ fuel →
      enabledWorkers (run sched fuel t s) = []
  | 0, t, s, h => by
    have : s.work = 0 := Nat.le_zero.mp h
    show enabledWorkers s = []
    exact work_zero_enabled this
  | Nat.succ fuel, t, s, h => by
    show enabledWorkers (match step (sched t) s with
      | none => s
      | some s' => run sched fuel (t + 1) s') = []
    cases hs : step (sched t) s with
    | none => exact step_none hs
    | some s' =>
      apply run_terminal sched fuel (t + 1) s'
      obtain ⟨w, hw, ha⟩ := step_some hs
      have := workerAction_work hw ha
      omega

theorem statusIds_runBody {σ : Type} (s : MState σ) (i : Nat)
    (f : σ → σ × RunResult) :
    statusIds (runBody s i f) = statusIds s ++ [i] := by
  simp [statusIds, runBody_statuses]

theorem isDone_mono_runBody {σ : Type} {s : MState σ} {j : Nat} (i : Nat)
    (f : σ → σ × RunResult) (h : s.isDone j = true) :
    (runBody s i f).isDone j = true := by
  rw [isDone_iff] at h ⊢
  rw [statusIds_runBody]
  exact List.mem_append_left _ h

theorem isDone_runBody_self {σ : Type} (s : MState σ) (i : Nat)
    (f : σ → σ × RunResult) : (runBody s i f).isDone i = true := by
  rw [isDone_iff, statusIds_runBody]
  simp

theorem Inv_doFinish {σ : Type} {s : MState σ} {w : Nat} {F : Frame σ}
    {rest : List (Frame σ)} (hw : w < s.workers.length)
    (hst : (s.workers.getD w (defaultWorker σ)).stack = F :: rest)
    (hInv : Inv s) : Inv (doFinish s w F rest) := by
  have hfr' : frames (doFinish s w F rest) =
      framesPre s.workers w ++ (rest ++ framesSuf s.workers w) := by
    show frames (runBody (s.setStack w rest) F.id F.after) = _
    rw [runBody_frames, frames_setStack hw]
  have hfr : frames s =
      framesPre s.workers w ++ ((F :: rest) ++ framesSuf s.workers w) := by
    rw [frames_decomp hw, hst]
  have hq : (doFinish s w F rest).queue = s.queue := rfl
  have hsub : ∀ G ∈ frames (doFinish s w F rest), G ∈ frames s := by
    intro G hG
    rw [hfr'] at hG
    rw [hfr]
    simp only [List.mem_append, List.mem_cons] at hG ⊢
    tauto
  have hph : (doFinish s w F rest).poolHasWorker = s.poolHasWorker := by
    show (s.setStack w rest).poolHasWorker = s.poolHasWorker
    exact poolHasWorker_setStack hw rest
  have hstat : (doFinish s w F rest).statuses =
      s.statuses ++ [(F.id, resultToStatus ((F.after (s.setStack w rest).shared)).2)] := rfl
  have hstatIds : statusIds (doFinish s w F rest) = statusIds s ++ [F.id] := by
    simp [statusIds, hstat]
  have hperm : (allIds (doFinish s w F rest)).Perm (allIds s) := by
    apply List.perm_iff_count.mpr
    intro a
    by_cases ha : a = F.id <;>
      simp [allIds, queuedIds, frameIds, statusIds, hfr', hfr, hstat, hq,
        List.count_append, List.count_cons, ha] <;>
      omega
  refine ⟨?_, ?_, ?_, ?_, ?_, ?_, ?_, ?_⟩
  · intro t ht
    rw [hq] at ht
    rw [hph]
    exact hInv.queue_pool t ht
  · intro G hG
    show G.pushIdx < s.nextPush
    exact hInv.push_lt G (hsub G hG)
  · intro wk' hwk'
    have hwk2 : wk' ∈ (s.setStack w rest).workers := hwk'
    rcases mem_workers_setStack hw hwk2 with h | h
    · exact hInv.stack_sorted wk' h
    · rw [h]
      have hold := hInv.stack_sorted _ (getD_mem_workers hw)
      rw [hst] at hold
      simp only [List.map_cons] at hold
      exact hold.of_cons
  · intro G hG i hi
    have hGs := hsub G hG
    rcases hInv.waiting_ok G hGs i hi with hdone | hqd | ⟨H, hH, hid, hlt⟩
    · left
      rw [MState.isDone, lookup_isSome_iff]
      show i ∈ statusIds _
      rw [hstatIds]
      rw [MState.isDone, lookup_isSome_iff] at hdone
      exact List.mem_append_left _ hdone
    · right; left
      show i ∈ (doFinish s w F rest).queue.map QTask.id
      rw [hq]
      exact hqd
    · rw [hfr] at hH
      simp only [List.mem_append, List.mem_cons] at hH
      rcases hH with hpre | hFc | hsuf
      · refine Or.inr (Or.inr ⟨H, ?_, hid, hlt⟩)
        rw [hfr']
        simp only [List.mem_append]
        exact Or.inl hpre
      · rcases hFc with hHF | hrest
        · left
          rw [MState.isDone, lookup_isSome_iff]
          show i ∈ statusIds _
          rw [hstatIds, ← hid, hHF]
          simp
        · refine Or.inr (Or.inr ⟨H, ?_, hid, hlt⟩)
          rw [hfr']
          simp only [List.mem_append]
          exact Or.inr (Or.inl hrest)
      · refine Or.inr (Or.inr ⟨H, ?_, hid, hlt⟩)
        rw [hfr']
        simp only [List.mem_append]
        exact Or.inr (Or.inr hsuf)
  · intro id hid
    show id < s.nextId
    exact hInv.ids_lt id (hperm.mem_iff.mp hid)
  · exact (hperm.nodup_iff).mpr hInv.ids_nodup
  · intro id hid
    exact hperm.mem_iff.mpr (hInv.ids_cover id hid)
  · show s.statuses ++ _ = (s.log ++ _).map _
    rw [hInv.log_statuses]
    simp

theorem Inv_startAct {σ : Type} {s : MState σ} {t : QTask σ}
    {q' : List (QTask σ)} {f : σ → σ × RunResult}
    (hperm : s.queue.Perm (t :: q')) (hInv : Inv s) :
    Inv (runBody ({ s with queue := q' } : MState σ) t.id f) := by
  have hqperm : (queuedIds s).Perm (t.id :: q'.map QTask.id) := by
    have := hperm.map QTask.id
    simpa [queuedIds] using this
  have hfr : frames (runBody ({ s with queue := q' } : MState σ) t.id f) =
      frames s := rfl
  have hstatIds : statusIds (runBody ({ s with queue := q' } : MState σ) t.id f) =
      statusIds s ++ [t.id] := by
    simp [statusIds, runBody_statuses]
  have hq : (runBody ({ s with queue := q' } : MState σ) t.id f).queue = q' := rfl
  have hperm2 : (allIds (runBody ({ s with queue := q' } : MState σ) t.id f)).Perm
      (allIds s) := by
    apply List.perm_iff_count.mpr
    intro a
    have hqc := hqperm.count_eq a
    simp only [List.count_cons] at hqc
    by_cases ha : a = t.id <;>
      simp only [allIds, queuedIds, frameIds, statusIds, hfr, hq,
        runBody_statuses, List.map_append, List.count_append, List.map_cons,
        List.count_cons, List.map_nil, List.count_nil, ha] <;>
      simp only [allIds, queuedIds, frameIds, statusIds] at hqc ⊢ <;>
      simp [ha] at hqc ⊢ <;>
      omega
  refine ⟨?_, ?_, ?_, ?_, ?_, ?_, ?_, ?_⟩
  · intro u hu
    rw [hq] at hu
    have hu' : u ∈ s.queue := hperm.mem_iff.mpr (List.mem_cons_of_mem t hu)
    exact hInv.queue_pool u hu'
  · intro G hG
    rw [hfr] at hG
    exact hInv.push_lt G hG
  · intro wk' hwk'
    exact hInv.stack_sorted wk' hwk'
  · intro G hG i hi
    rw [hfr] at hG
    rcases hInv.waiting_ok G hG i hi with hdone | hqd | ⟨H, hH, hid, hlt⟩
    · left
      rw [MState.isDone, lookup_isSome_iff] at hdone ⊢
      rw [show (runBody ({ s with queue := q' } : MState σ) t.id f).statuses.map
          Prod.fst = statusIds s ++ [t.id] from hstatIds]
      exact List.mem_append_left _ hdone
    · have hq2 : i ∈ t.id :: q'.map QTask.id := hqperm.mem_iff.mp hqd
      rcases List.mem_cons.mp hq2 with hit | hiq
      · left
        rw [MState.isDone, lookup_isSome_iff]
        rw [show (runBody ({ s with queue := q' } : MState σ) t.id f).statuses.map
            Prod.fst = statusIds s ++ [t.id] from hstatIds, hit]
        simp
      · right; left
        show i ∈ (runBody ({ s with queue := q' } : MState σ) t.id f).queue.map QTask.id
        rw [hq]
        exact hiq
    · refine Or.inr (Or.inr ⟨H, ?_, hid, hlt⟩)
      rw [hfr]
      exact hH
  · intro id hid
    exact hInv.ids_lt id (hperm2.mem_iff.mp hid)
  · exact (hperm2.nodup_iff).mpr hInv.ids_nodup
  · intro id hid
    exact hperm2.mem_iff.mpr (hInv.ids_cover id hid)
  · show s.statuses ++ _ = (s.log ++ _).map _
    rw [hInv.log_statuses]
    simp

theorem Inv_startSpawn {σ : Type} {s : MState σ} {w : Nat} {t : QTask σ}
    {q' : List (QTask σ)} {pl : Nat} {subs : List (Prog σ)}
    {after : σ → σ × RunResult} (hw : w < s.workers.length)
    (hperm : s.queue.Perm (t :: q')) (hInv : Inv s) :
    Inv (doSpawn ({ s with queue := q' } : MState σ) w t.id pl subs after) := by
  obtain ⟨new, hEq, hIds, hPool, hSz⟩ :=
    doSpawn_eq ({ s with queue := q' } : MState σ) w t.id pl subs after
  rw [hEq]
  show Inv ({ MState.setStack
      ({ s with
          queue := q' ++ new,
          nextId := s.nextId + new.length } : MState σ) w
      ((⟨t.id, s.nextPush, new.map QTask.id, after⟩ : Frame σ) ::
        (s.workers.getD w (defaultWorker σ)).stack) with
    nextPush := s.nextPush + 1 } : MState σ)
  set SS := ({ s with
      queue := q' ++ new,
      nextId := s.nextId + new.length } : MState σ) with hSS
  set Fn := (⟨t.id, s.nextPush, new.map QTask.id, after⟩ : Frame σ) with hFn
  set stk := (s.workers.getD w (defaultWorker σ)).stack with hstk
  set R := ({ MState.setStack SS w (Fn :: stk) with
      nextPush := s.nextPush + 1 } : MState σ) with hR
  have hwSS : w < SS.workers.length := hw
  have hqperm : (queuedIds s).Perm (t.id :: q'.map QTask.id) := by
    have := hperm.map QTask.id
    simpa [queuedIds] using this
  have hIds' : new.map QTask.id = List.range' s.nextId new.length := hIds
  have hfrR : frames R = framesPre s.workers w ++
      ((Fn :: stk) ++ framesSuf s.workers w) := by
    show frames (SS.setStack w (Fn :: stk)) = _
    rw [frames_setStack hwSS]
  have hfrs : frames s = framesPre s.workers w ++
      (stk ++ framesSuf s.workers w) := frames_decomp hw
  have hRqueue : R.queue = q' ++ new := rfl
  have hRstat : R.statuses = s.statuses := rfl
  have hRlog : R.log = s.log := rfl
  have hRnextId : R.nextId = s.nextId + new.length := rfl
  have hRnextPush : R.nextPush = s.nextPush + 1 := rfl
  have hph : R.poolHasWorker = s.poolHasWorker := by
    show (SS.setStack w (Fn :: stk)).poolHasWorker = _
    rw [poolHasWorker_setStack hwSS]
    rfl
  have hsubs : ∀ G : Frame σ, G ∈ framesPre s.workers w ∨ G ∈ stk ∨
      G ∈ framesSuf s.workers w → G ∈ frames s := by
    intro G hG
    rw [hfrs]
    simp only [List.mem_append]
    tauto
  have hmemR : ∀ G : Frame σ, G ∈ frames R ↔
      G ∈ framesPre s.workers w ∨ (G = Fn ∨ G ∈ stk) ∨
        G ∈ framesSuf s.workers w := by
    intro G
    rw [hfrR]
    simp only [List.mem_append, List.mem_cons]
  have hfresh : ∀ a ∈ new.map QTask.id,
      s.nextId ≤ a ∧ a < s.nextId + new.length := by
    intro a ha
    rw [hIds'] at ha
    exact List.mem_range'_1.mp ha
  have hnodupNew : (new.map QTask.id).Nodup := by
    rw [hIds']
    exact List.nodup_range' _ _
  have hperm2 : (allIds R).Perm (new.map QTask.id ++ allIds s) := by
    apply List.perm_iff_count.mpr
    intro a
    have hqc := hqperm.count_eq a
    simp only [List.count_cons] at hqc
    by_cases ha : a = t.id <;>
      simp only [allIds, queuedIds, frameIds, statusIds, hfrR, hfrs,
        setStack_queue, setStack_statuses, hSS, List.map_append,
        List.count_append, List.map_cons, List.count_cons, ha] <;>
      simp only [allIds, queuedIds, frameIds, statusIds] at hqc ⊢ <;>
      simp [ha, hFn] at hqc ⊢ <;>
      omega
  refine ⟨?_, ?_, ?_, ?_, ?_, ?_, ?_, ?_⟩
  · intro u hu
    rw [hRqueue] at hu
    rw [hph]
    rcases List.mem_append.mp hu with h | h
    · exact hInv.queue_pool u (hperm.mem_iff.mpr (List.mem_cons_of_mem t h))
    · exact (hPool u h).2
  · intro G hG
    rw [hRnextPush]
    rcases (hmemR G).mp hG with h | h | h
    · exact Nat.lt_succ_of_lt (hInv.push_lt G (hsubs G (Or.inl h)))
    · rcases h with h | h
      · rw [h]
        exact Nat.lt_succ_self _
      · exact Nat.lt_succ_of_lt (hInv.push_lt G (hsubs G (Or.inr (Or.inl h))))
    · exact Nat.lt_succ_of_lt (hInv.push_lt G (hsubs G (Or.inr (Or.inr h))))
  · intro wk' hwk'
    have hwk2 : wk' ∈ (SS.setStack w (Fn :: stk)).workers := hwk'
    rcases mem_workers_setStack hwSS hwk2 with h | h
    · exact hInv.stack_sorted wk' h
    · rw [h]
      show ((Fn :: stk).map Frame.pushIdx).Pairwise (fun a b => b < a)
      rw [List.map_cons, List.pairwise_cons]
      constructor
      · intro b hb
        rw [List.mem_map] at hb
        obtain ⟨G, hG, hGb⟩ := hb
        rw [← hGb]
        show G.pushIdx < Fn.pushIdx
        rw [hFn]
        exact hInv.push_lt G (hsubs G (Or.inr (Or.inl hG)))
      · exact hInv.stack_sorted _ (getD_mem_workers hw)
  · intro G hG i hi
    have hold : ∀ G' : Frame σ, G' ∈ frames s → ∀ i' ∈ G'.waiting,
        R.isDone i' = true ∨ i' ∈ queuedIds R ∨
          ∃ H ∈ frames R, H.id = i' ∧ G'.pushIdx < H.pushIdx := by
      intro G' hG' i' hi'
      rcases hInv.waiting_ok G' hG' i' hi' with hdone | hqd | ⟨H, hH, hid, hlt⟩
      · left
        show R.isDone i' = true
        rw [MState.isDone, hRstat]
        exact hdone
      · have hq2 : i' ∈ t.id :: q'.map QTask.id := hqperm.mem_iff.mp hqd
        rcases List.mem_cons.mp hq2 with hit | hiq
        · refine Or.inr (Or.inr ⟨Fn, ?_, ?_, ?_⟩)
          · exact (hmemR Fn).mpr (Or.inr (Or.inl (Or.inl rfl)))
          · rw [hFn, hit]
          · show G'.pushIdx < Fn.pushIdx
            rw [hFn]
            exact hInv.push_lt G' hG'
        · right; left
          show i' ∈ R.queue.map QTask.id
          rw [hRqueue, List.map_append]
          exact List.mem_append_left _ hiq
      · refine Or.inr (Or.inr ⟨H, ?_, hid, hlt⟩)
        rw [hfrs] at hH
        rw [hfrR]
        simp only [List.mem_append, List.mem_cons] at hH ⊢
        tauto
    rcases (hmemR G).mp hG with h | h | h
    · exact hold G (hsubs G (Or.inl h)) i hi
    · rcases h with h | h
      · right; left
        show i ∈ R.queue.map QTask.id
        rw [hRqueue, List.map_append]
        apply List.mem_append_right
        rw [h, hFn] at hi
        exact hi
      · exact hold G (hsubs G (Or.inr (Or.inl h))) i hi
    · exact hold G (hsubs G (Or.inr (Or.inr h))) i hi
  · intro a ha
    rw [hRnextId]
    rcases List.mem_append.mp (hperm2.mem_iff.mp ha) with h | h
    · exact (hfresh a h).2
    · have := hInv.ids_lt a h
      omega
  · apply (hperm2.nodup_iff).mpr
    rw [List.nodup_append]
    refine ⟨hnodupNew, hInv.ids_nodup, ?_⟩
    intro a ha ha'
    have h1 := (hfresh a ha).1
    have h2 := hInv.ids_lt a ha'
    omega
  · intro a ha
    rw [hRnextId] at ha
    apply hperm2.mem_iff.mpr
    by_cases h : a < s.nextId
    · exact List.mem_append_right _ (hInv.ids_cover a h)
    · apply List.mem_append_left
      rw [hIds']
      rw [List.mem_range'_1]
      omega
  · show R.statuses = R.log.map _
    rw [hRstat, hRlog]
    exact hInv.log_statuses
theorem Inv_workerAction {σ : Type} {s s' : MState σ} {w : Nat}
    (hw : w < s.workers.length) (h : workerAction s w = some s')
    (hInv : Inv s) : Inv s' := by
  rcases workerAction_cases h with ⟨F, rest, hst, _, hs'⟩ | ⟨t, q', hpop, hs'⟩
  · rw [hs']
    exact Inv_doFinish hw hst hInv
  · rw [hs']
    have hperm := popFirst_perm hpop
    cases hp : t.prog with
    | act f =>
      have hred : startTask s w t q' =
          runBody ({ s with queue := q' } : MState σ) t.id f := by
        simp [startTask, hp]
      rw [hred]
      exact Inv_startAct hperm hInv
    | spawnWait pl subs after =>
      have hred : startTask s w t q' =
          doSpawn ({ s with queue := q' } : MState σ) w t.id pl subs after := by
        simp [startTask, hp]
      rw [hred]
      exact Inv_startSpawn hw hperm hInv

theorem run_preserve {σ : Type} (P : MState σ → Prop)
    (hP : ∀ c s s', step c s = some s' → P s → P s') (sched : Nat → Nat) :
    ∀ (fuel t : Nat) (s : MState σ), P s → P (run sched fuel t s)
  | 0, _, s, h => h
  | Nat.succ fuel, t, s, h => by
    show P (match step (sched t) s with
      | none => s
      | some s' => run sched fuel (t + 1) s')
    cases hs : step (sched t) s with
    | none => exact h
    | some s' => exact run_preserve P hP sched fuel (t + 1) s' (hP _ s s' hs h)

theorem Inv_step {σ : Type} {c : Nat} {s s' : MState σ}
    (h : step c s = some s') (hInv : Inv s) : Inv s' := by
  obtain ⟨w, hw, ha⟩ := step_some h
  exact Inv_workerAction hw ha hInv

theorem Inv_run {σ : Type} (sched : Nat → Nat) (fuel t : Nat) (s : MState σ)
    (hInv : Inv s) : Inv (run sched fuel t s) :=
  run_preserve Inv (fun _ _ _ hs h => Inv_step hs h) sched fuel t s hInv

theorem popFirst_none {α : Type} {p : α → Bool} {l : List α}
    (h : popFirst p l = none) : ∀ x ∈ l, p x = false := by
  intro x hx
  by_contra hpx
  have hpx' : p x = true := by
    cases hv : p x
    · exact absurd hv hpx
    · rfl
  have := popFirst_isSome hx hpx'
  rw [h] at this
  simp at this

theorem workerAction_none {σ : Type} {s : MState σ} {w : Nat}
    (h : workerAction s w = none) :
    (∀ x ∈ s.queue,
      (x.pool == (s.workers.getD w (defaultWorker σ)).pool) = false) ∧
    (∀ F rest, (s.workers.getD w (defaultWorker σ)).stack = F :: rest →
      s.allDone F.waiting = false) := by
  simp only [workerAction] at h
  split at h
  · rename_i F rest hst
    split at h
    · simp at h
    · rename_i hdone
      split at h
      · simp at h
      · rename_i hpop
        refine ⟨popFirst_none hpop, ?_⟩
        intro F' rest' hst'
        rw [hst] at hst'
        cases hv : s.allDone F'.waiting
        · rfl
        · exfalso
          apply hdone
          have hF : F' = F := by
            have := congrArg (fun l => List.head? l) hst'
            simpa using this.symm
          rw [← hF]
          exact hv
  · rename_i hst
    split at h
    · simp at h
    · rename_i hpop
      refine ⟨popFirst_none hpop, ?_⟩
      intro F' rest' hst'
      rw [hst] at hst'
      simp at hst'

theorem exists_max_pushIdx {σ : Type} :
    ∀ {l : List (Frame σ)}, l ≠ [] →
      ∃ F ∈ l, ∀ G ∈ l, G.pushIdx ≤ F.pushIdx
  | [], h => absurd rfl h
  | [F], _ => ⟨F, List.mem_singleton_self F, by
      intro G hG
      rw [List.mem_singleton.mp hG]⟩
  | F :: G :: l, _ => by
    obtain ⟨M, hM, hmax⟩ := @exists_max_pushIdx σ (G :: l) (by simp)
    by_cases hc : F.pushIdx ≤ M.pushIdx
    · exact ⟨M, List.mem_cons_of_mem F hM, by
        intro H hH
        rcases List.mem_cons.mp hH with h | h
        · rw [h]; exact hc
        · exact hmax H h⟩
    · refine ⟨F, List.mem_cons_self F _, ?_⟩
      intro H hH
      rcases List.mem_cons.mp hH with h | h
      · rw [h]
      · exact le_trans (hmax H h) (le_of_not_le hc)

theorem frame_worker {σ : Type} {s : MState σ} {F : Frame σ}
    (h : F ∈ frames s) :
    ∃ w, w < s.workers.length ∧
      F ∈ (s.workers.getD w (defaultWorker σ)).stack := by
  unfold frames at h
  rw [List.mem_flatten] at h
  obtain ⟨lst, hlst, hF⟩ := h
  rw [List.mem_map] at hlst
  obtain ⟨wk, hwk, hwkst⟩ := hlst
  obtain ⟨⟨w, hwlt⟩, hget⟩ := List.mem_iff_get.mp hwk
  refine ⟨w, hwlt, ?_⟩
  rw [List.getD_eq_getElem?_getD, List.getElem?_eq_getElem hwlt]
  show F ∈ (s.workers[w]).stack
  have : s.workers[w] = wk := by
    rw [← hget]
    simp
  rw [this, hwkst]
  exact hF

theorem enabled_empty_final {σ : Type} {s : MState σ} (hInv : Inv s)
    (h : enabledWorkers s = []) : s.queue = [] ∧ frames s = [] := by
  have hnone : ∀ w, w < s.workers.length → workerAction s w = none := by
    intro w hw
    cases hv : workerAction s w with
    | none => rfl
    | some s' =>
      exfalso
      have : w ∈ enabledWorkers s :=
        mem_enabledWorkers.mpr ⟨hw, by rw [hv]; rfl⟩
      rw [h] at this
      simp at this
  have hq : s.queue = [] := by
    cases hqv : s.queue with
    | nil => rfl
    | cons t rest =>
      exfalso
      have ht : t ∈ s.queue := by rw [hqv]; exact List.mem_cons_self t rest
      have hp := hInv.queue_pool t ht
      rw [MState.poolHasWorker, List.any_eq_true] at hp
      obtain ⟨wk, hwk, hbeq⟩ := hp
      obtain ⟨⟨w, hwlt⟩, hget⟩ := List.mem_iff_get.mp hwk
      have hgetD : s.workers.getD w (defaultWorker σ) = wk := by
        rw [List.getD_eq_getElem?_getD, List.getElem?_eq_getElem hwlt]
        rw [← hget]
        simp
      have := (workerAction_none (hnone w hwlt)).1 t ht
      rw [hgetD] at this
      rw [show wk.pool = t.pool from by simpa using hbeq] at this
      simp at this
  cases hfv : frames s with
  | nil => exact ⟨hq, rfl⟩
  | cons F0 rest0 =>
    exfalso
    have hne : frames s ≠ [] := by rw [hfv]; simp
    obtain ⟨F, hF, hmax⟩ := exists_max_pushIdx hne
    obtain ⟨w, hwlt, hFstack⟩ := frame_worker hF
    cases hstv : (s.workers.getD w (defaultWorker σ)).stack with
    | nil => rw [hstv] at hFstack; simp at hFstack
    | cons G rest =>
      have hGF : F = G := by
        rw [hstv] at hFstack
        rcases List.mem_cons.mp hFstack with h1 | h1
        · exact h1
        · exfalso
          have hsorted := hInv.stack_sorted _ (getD_mem_workers hwlt)
          rw [hstv] at hsorted
          simp only [List.map_cons, List.pairwise_cons] at hsorted
          have hlt := hsorted.1 F.pushIdx (List.mem_map_of_mem _ h1)
          have hGmem : G ∈ frames s := by
            rw [frames_decomp hwlt, hstv]
            simp
          have := hmax G hGmem
          omega
      have hdone := (workerAction_none (hnone w hwlt)).2 G rest hstv
      rw [MState.allDone] at hdone
      have : ∃ i ∈ G.waiting, ¬(s.isDone i = true) := by
        by_contra hall
        push_neg at hall
        rw [List.all_eq_true.mpr (by intro x hx; exact hall x hx)] at hdone
        simp at hdone
      obtain ⟨i, hi, hnd⟩ := this
      have hGmem : G ∈ frames s := by
        rw [frames_decomp hwlt, hstv]
        simp
      rcases hInv.waiting_ok G hGmem i hi with h1 | h1 | ⟨H, hH, hid, hlt⟩
      · exact hnd h1
      · rw [show queuedIds s = [] from (by rw [queuedIds, hq]; rfl)] at h1
        simp at h1
      · have := hmax H hH
        rw [hGF] at hmax
        have := hmax H hH
        omega

theorem workerAction_statuses {σ : Type} {s s' : MState σ} {w : Nat}
    (h : workerAction s w = some s') :
    ∃ tail, s'.statuses = s.statuses ++ tail := by
  rcases workerAction_cases h with ⟨F, rest, hst, _, hs'⟩ | ⟨t, q', hpop, hs'⟩
  · exact ⟨_, by rw [hs']; rfl⟩
  · cases hp : t.prog with
    | act f =>
      have hred : startTask s w t q' =
          runBody ({ s with queue := q' } : MState σ) t.id f := by
        simp [startTask, hp]
      rw [hs', hred]
      exact ⟨[(t.id, resultToStatus ((f s.shared)).2)], rfl⟩
    | spawnWait pl subs after =>
      refine ⟨[], ?_⟩
      rw [hs']
      have hred : startTask s w t q' =
          doSpawn ({ s with queue := q' } : MState σ) w t.id pl subs after := by
        simp [startTask, hp]
      rw [hred]
      obtain ⟨new, hEq, _, _, _⟩ :=
        doSpawn_eq ({ s with queue := q' } : MState σ) w t.id pl subs after
      rw [hEq]
      simp [setStack_statuses]

theorem lookup_append_of_isSome {β : Type} :
    ∀ (l l₂ : List (Nat × β)) (i : Nat), (l.lookup i).isSome = true →
      (l ++ l₂).lookup i = l.lookup i
  | [], _, i, h => by simp [List.lookup] at h
  | (a, b) :: l, l₂, i, h => by
    by_cases hia : i = a
    · subst hia
      simp [List.lookup]
    · have hba : (i == a) = false := beq_false_of_ne hia
      simp only [List.lookup, hba] at h
      show ((a, b) :: (l ++ l₂)).lookup i = _
      simp only [List.lookup, hba]
      exact lookup_append_of_isSome l l₂ i h

theorem run_statuses_stable {σ : Type} (sched : Nat → Nat)
    (fuel t : Nat) (s : MState σ) :
    ∃ tail, (run sched fuel t s).statuses = s.statuses ++ tail := by
  induction fuel generalizing t s with
  | zero => exact ⟨[], by simp [run]⟩
  | succ fuel ih =>
    show ∃ tail, (match step (sched t) s with
      | none => s
      | some s' => run sched fuel (t + 1) s').statuses = _
    cases hs : step (sched t) s with
    | none => exact ⟨[], (List.append_nil _).symm⟩
    | some s' =>
      obtain ⟨w, _, ha⟩ := step_some hs
      obtain ⟨tl₁, h1⟩ := workerAction_statuses ha
      obtain ⟨tl₂, h2⟩ := ih (t + 1) s'
      exact ⟨tl₁ ++ tl₂, by rw [h2, h1, List.append_assoc]⟩

theorem final_statuses {σ : Type} {s : MState σ} (hInv : Inv s)
    (hq : s.queue = []) (hf : frames s = []) :
    ∀ i, i < s.nextId → (s.statuses.lookup i).isSome = true := by
  intro i hi
  have hmem := hInv.ids_cover i hi
  rw [allIds] at hmem
  rw [lookup_isSome_iff]
  rcases List.mem_append.mp hmem with h | h
  · rw [queuedIds, hq] at h
    simp at h
  · rcases List.mem_append.mp h with h | h
    · rw [frameIds, hf] at h
      simp at h
    · exact h

theorem workerAction_nextId {σ : Type} {s s' : MState σ} {w : Nat}
    (h : workerAction s w = some s') : s.nextId ≤ s'.nextId := by
  rcases workerAction_cases h with ⟨F, rest, hst, _, hs'⟩ | ⟨t, q', hpop, hs'⟩
  · rw [hs']
    exact Nat.le_refl _
  · rw [hs']
    cases hp : t.prog with
    | act f =>
      have hred : startTask s w t q' =
          runBody ({ s with queue := q' } : MState σ) t.id f := by
        simp [startTask, hp]
      rw [hred]
      exact Nat.le_refl _
    | spawnWait pl subs after =>
      have hred : startTask s w t q' =
          doSpawn ({ s with queue := q' } : MState σ) w t.id pl subs after := by
        simp [startTask, hp]
      rw [hred]
      obtain ⟨new, hEq, _, _, _⟩ :=
        doSpawn_eq ({ s with queue := q' } : MState σ) w t.id pl subs after
      rw [hEq]
      exact Nat.le_add_right _ _

theorem run_nextId_mono {σ : Type} (sched : Nat → Nat) :
    ∀ (fuel t : Nat) (s : MState σ), s.nextId ≤ (run sched fuel t s).nextId
  | 0, _, _ => Nat.le_refl _
  | Nat.succ fuel, t, s => by
    show s.nextId ≤ (match step (sched t) s with
      | none => s
      | some s' => run sched fuel (t + 1) s').nextId
    cases hs : step (sched t) s with
    | none => exact Nat.le_refl _
    | some s' =>
      obtain ⟨w, _, ha⟩ := step_some hs
      exact le_trans (workerAction_nextId ha) (run_nextId_mono sched fuel (t + 1) s')

theorem run_resolves {σ : Type} (sched : Nat → Nat) (fuel t : Nat)
    (s : MState σ) (hInv : Inv s) (hfuel : s.work ≤ fuel) :
    (run sched fuel t s).queue = [] ∧ frames (run sched fuel t s) = [] ∧
      ∀ i, i < s.nextId →
        ((run sched fuel t s).statuses.lookup i).isSome = true := by
  have hInvf := Inv_run sched fuel t s hInv
  have hterm := run_terminal sched fuel t s hfuel
  obtain ⟨hq, hf⟩ := enabled_empty_final hInvf hterm
  refine ⟨hq, hf, ?_⟩
  intro i hi
  exact final_statuses hInvf hq hf i
    (lt_of_lt_of_le hi (run_nextId_mono sched fuel t s))

theorem mem_workers_mkState {σ : Type} {sh : σ} {ks : List Nat}
    {wk : Worker σ} (h : wk ∈ (mkState sh ks).workers) : wk.stack = [] := by
  have h' : wk ∈ ((List.range ks.length).map
      (fun pl => List.replicate (ks.getD pl 0) (⟨pl, []⟩ : Worker σ))).flatten := h
  rw [List.mem_flatten] at h'
  obtain ⟨l, hl, hwk⟩ := h'
  rw [List.mem_map] at hl
  obtain ⟨pl, _, hrepl⟩ := hl
  rw [← hrepl] at hwk
  have := List.eq_of_mem_replicate hwk
  rw [this]

theorem frames_mkState {σ : Type} (sh : σ) (ks : List Nat) :
    frames (mkState sh ks) = [] := by
  apply List.flatten_eq_nil_iff.mpr
  intro l hl
  rw [List.mem_map] at hl
  obtain ⟨wk, hwk, hst⟩ := hl
  rw [← hst]
  exact mem_workers_mkState hwk

theorem Inv_mkState {σ : Type} (sh : σ) (ks : List Nat) :
    Inv (mkState sh ks) := by
  have hfr := frames_mkState sh ks
  have hall : allIds (mkState sh ks) = [] := by
    rw [allIds, queuedIds, frameIds, statusIds, hfr]
    rfl
  refine ⟨?_, ?_, ?_, ?_, ?_, ?_, ?_, ?_⟩
  · intro t ht
    simp [mkState] at ht
  · intro F hF
    rw [hfr] at hF
    simp at hF
  · intro wk hwk
    rw [mem_workers_mkState hwk]
    simp
  · intro F hF
    rw [hfr] at hF
    simp at hF
  · intro id hid
    rw [hall] at hid
    simp at hid
  · rw [hall]
    exact List.nodup_nil
  · intro id hid
    have hid0 : id < 0 := hid
    omega
  · rfl

theorem Inv_executeMany {σ : Type} (pl : Nat) (ps : List (Prog σ))
    {s : MState σ} (hInv : Inv s) : Inv ((s.executeMany pl ps).1) := by
  obtain ⟨new, h1, h2, h3, h4, h5⟩ := executeMany_spec pl ps s
  rw [h1]
  set R := ({ s with
      queue := s.queue ++ new,
      nextId := s.nextId + new.length } : MState σ) with hR
  have hfrR : frames R = frames s := rfl
  have hfresh : ∀ a ∈ new.map QTask.id,
      s.nextId ≤ a ∧ a < s.nextId + new.length := by
    intro a ha
    rw [h2] at ha
    exact List.mem_range'_1.mp ha
  have hnodupNew : (new.map QTask.id).Nodup := by
    rw [h2]
    exact List.nodup_range' _ _
  have hperm2 : (allIds R).Perm (new.map QTask.id ++ allIds s) := by
    apply List.perm_iff_count.mpr
    intro a
    simp only [allIds, queuedIds, frameIds, statusIds, hfrR, hR,
      List.map_append, List.count_append]
    omega
  refine ⟨?_, ?_, ?_, ?_, ?_, ?_, ?_, ?_⟩
  · intro t ht
    rcases List.mem_append.mp ht with h | h
    · exact hInv.queue_pool t h
    · exact (h4 t h).2
  · intro F hF
    rw [hfrR] at hF
    exact hInv.push_lt F hF
  · intro wk hwk
    exact hInv.stack_sorted wk hwk
  · intro F hF i hi
    rw [hfrR] at hF
    rcases hInv.waiting_ok F hF i hi with hdone | hqd | ⟨H, hH, hid, hlt⟩
    · exact Or.inl hdone
    · right; left
      show i ∈ R.queue.map QTask.id
      rw [show R.queue = s.queue ++ new from rfl, List.map_append]
      exact List.mem_append_left _ hqd
    · exact Or.inr (Or.inr ⟨H, by rw [hfrR]; exact hH, hid, hlt⟩)
  · intro a ha
    show a < s.nextId + new.length
    rcases List.mem_append.mp (hperm2.mem_iff.mp ha) with h | h
    · exact (hfresh a h).2
    · have := hInv.ids_lt a h
      omega
  · apply (hperm2.nodup_iff).mpr
    rw [List.nodup_append]
    refine ⟨hnodupNew, hInv.ids_nodup, ?_⟩
    intro a ha ha'
    have hb1 := (hfresh a ha).1
    have hb2 := hInv.ids_lt a ha'
    omega
  · intro a ha
    apply hperm2.mem_iff.mpr
    by_cases h : a < s.nextId
    · exact List.mem_append_right _ (hInv.ids_cover a h)
    · apply List.mem_append_left
      rw [h2, List.mem_range'_1]
      constructor
      · omega
      · exact ha
  · exact hInv.log_statuses

/-- The queue segment created by submitting `ps` to pool `pl` starting
at id `start`: one task per closure, consecutive ids. -/
def enqueueList {σ : Type} (pl start : Nat) : List (Prog σ) → List (QTask σ)
  | [] => []
  | p :: ps => ⟨start, pl, p⟩ :: enqueueList pl (start + 1) ps

theorem executeMany_queue_exact {σ : Type} (pl : Nat) :
    ∀ (ps : List (Prog σ)) (s : MState σ), s.poolHasWorker pl = true →
      (s.executeMany pl ps).1 =
        { s with
            queue := s.queue ++ enqueueList pl s.nextId ps,
            nextId := s.nextId + ps.length }
  | [], s, _ => by
    show s = _
    simp [enqueueList]
  | p :: ps, s, hp => by
    show ((s.execute pl p).1.executeMany pl ps).1 = _
    have hex : (s.execute pl p).1 =
        ({ s with
            queue := s.queue ++ [⟨s.nextId, pl, p⟩],
            nextId := s.nextId + 1 } : MState σ) := by
      simp [MState.execute, hp]
    rw [hex]
    have hp2 : ({ s with
        queue := s.queue ++ [⟨s.nextId, pl, p⟩],
        nextId := s.nextId + 1 } : MState σ).poolHasWorker pl = true := hp
    rw [executeMany_queue_exact pl ps _ hp2]
    simp [enqueueList, List.append_assoc]
    omega

theorem executeMany_handles {σ : Type} (pl : Nat) :
    ∀ (ps : List (Prog σ)) (s : MState σ), s.poolHasWorker pl = true →
      (s.executeMany pl ps).2 =
        (List.range' s.nextId ps.length).map Task.valid
  | [], s, _ => by simp [MState.executeMany]
  | p :: ps, s, hp => by
    show (s.execute pl p).2 :: ((s.execute pl p).1.executeMany pl ps).2 = _
    have hex : s.execute pl p =
        (({ s with
            queue := s.queue ++ [⟨s.nextId, pl, p⟩],
            nextId := s.nextId + 1 } : MState σ), Task.valid s.nextId) := by
      simp [MState.execute, hp]
    rw [hex]
    have hp2 : ({ s with
        queue := s.queue ++ [⟨s.nextId, pl, p⟩],
        nextId := s.nextId + 1 } : MState σ).poolHasWorker pl = true := hp
    rw [executeMany_handles pl ps _ hp2]
    simp [List.range'_succ]

theorem poolHasWorker_mkState {σ : Type} (sh : σ) {ks : List Nat} {pl : Nat}
    (hpl : pl < ks.length) (hk : 1 ≤ ks.getD pl 0) :
    (mkState sh ks).poolHasWorker pl = true := by
  rw [MState.poolHasWorker, List.any_eq_true]
  refine ⟨⟨pl, []⟩, ?_, by simp⟩
  show (⟨pl, []⟩ : Worker σ) ∈ ((List.range ks.length).map
    (fun i => List.replicate (ks.getD i 0) (⟨i, []⟩ : Worker σ))).flatten
  rw [List.mem_flatten]
  refine ⟨List.replicate (ks.getD pl 0) (⟨pl, []⟩ : Worker σ), ?_, ?_⟩
  · exact List.mem_map_of_mem _ (List.mem_range.mpr hpl)
  · exact List.mem_replicate.mpr ⟨by omega, rfl⟩

theorem lookup_mem {β : Type} :
    ∀ (l : List (Nat × β)) (i : Nat) (v : β),
      l.lookup i = some v → (i, v) ∈ l
  | [], i, v, h => by simp [List.lookup] at h
  | (a, b) :: l, i, v, h => by
    by_cases hia : i = a
    · subst hia
      simp only [List.lookup, beq_self_eq_true] at h
      rw [Option.some.inj h]
      exact List.mem_cons_self _ _
    · have hba : (i == a) = false := beq_false_of_ne hia
      simp only [List.lookup, hba] at h
      exact List.mem_cons_of_mem _ (lookup_mem l i v h)

theorem mem_eq_of_nodup_keys {β : Type} {l : List (Nat × β)}
    (hnd : (l.map Prod.fst).Nodup) {i : Nat} {v₁ v₂ : β}
    (h₁ : (i, v₁) ∈ l) (h₂ : (i, v₂) ∈ l) : v₁ = v₂ := by
  induction l with
  | nil => simp at h₁
  | cons x xs ih =>
    simp only [List.map_cons, List.nodup_cons] at hnd
    rcases List.mem_cons.mp h₁ with hh₁ | hh₁ <;>
      rcases List.mem_cons.mp h₂ with hh₂ | hh₂
    · rw [← hh₂] at hh₁
      exact congrArg Prod.snd hh₁
    · exfalso
      apply hnd.1
      rw [← hh₁]
      show (i, v₂).fst ∈ _
      exact List.mem_map_of_mem _ hh₂
    · exfalso
      apply hnd.1
      rw [← hh₂]
      show (i, v₁).fst ∈ _
      exact List.mem_map_of_mem _ hh₁
    · exact ih hnd.2 hh₁ hh₂

theorem statusIds_nodup {σ : Type} {s : MState σ} (hInv : Inv s) :
    (statusIds s).Nodup := by
  have h := hInv.ids_nodup
  rw [allIds] at h
  exact (h.of_append_right).of_append_right

theorem statusIds_perm_range {σ : Type} {s : MState σ} (hInv : Inv s)
    (hq : s.queue = []) (hf : frames s = []) :
    (statusIds s).Perm (List.range s.nextId) := by
  have hnd := statusIds_nodup hInv
  apply List.perm_iff_count.mpr
  intro a
  by_cases hmem : a ∈ statusIds s
  · have hlt : a < s.nextId := hInv.ids_lt a (by
      rw [allIds]
      exact List.mem_append_right _ (List.mem_append_right _ hmem))
    rw [List.count_eq_one_of_mem hnd hmem,
      List.count_eq_one_of_mem (List.nodup_range _) (List.mem_range.mpr hlt)]
  · rw [List.count_eq_zero_of_not_mem hmem]
    by_cases hlt : a < s.nextId
    · exfalso
      have := hInv.ids_cover a hlt
      rw [allIds, queuedIds, hq, frameIds, hf] at this
      simp at this
      exact hmem this
    · rw [List.count_eq_zero_of_not_mem (by
        rw [List.mem_range]
        omega)]

theorem firstError_spec :
    ∀ l : List Status,
      (firstError l = Status.Ok ∧ ∀ st ∈ l, st.ok = true) ∨
      (firstError l ∈ l ∧ (firstError l).ok = false)
  | [] => Or.inl ⟨rfl, by simp⟩
  | st :: rest => by
    by_cases hok : st.ok = true
    · rcases firstError_spec rest with ⟨h1, h2⟩ | ⟨h1, h2⟩
      · left
        refine ⟨?_, ?_⟩
        · simp [firstError, hok, h1]
        · intro u hu
          rcases List.mem_cons.mp hu with h | h
          · rw [h]; exact hok
          · exact h2 u h
      · right
        constructor
        · simp only [firstError, hok, if_true]
          exact List.mem_cons_of_mem _ h1
        · simp only [firstError, hok, if_true]
          exact h2
    · right
      have hok' : st.ok = false := by
        cases hv : st.ok
        · rfl
        · exact absurd hv hok
      constructor
      · simp only [firstError, hok', if_false]
        exact List.mem_cons_self _ _
      · simp only [firstError, hok', if_false]
        exact hok'

theorem firstError_ok_of_all {l : List Status}
    (h : ∀ st ∈ l, st.ok = true) : firstError l = Status.Ok := by
  rcases firstError_spec l with ⟨h1, _⟩ | ⟨h1, h2⟩
  · exact h1
  · rw [h (firstError l) h1] at h2
    simp at h2

theorem validIds_map_valid : ∀ l : List Nat,
    validIds (l.map Task.valid) = l
  | [] => rfl
  | i :: l => by
    show i :: validIds (l.map Task.valid) = i :: l
    rw [validIds_map_valid l]

/-- The pattern of the counter tests: `N` independent closures submitted
in order, the `i`-th with body `body i`. -/
def flatProgs {σ : Type} (body : Nat → σ → σ × RunResult) (N : Nat) :
    List (Prog σ) :=
  (List.range N).map (fun i => Prog.act (body i))

theorem enqueueList_flat {σ : Type} (pl : Nat)
    (body : Nat → σ → σ × RunResult) :
    ∀ (N a : Nat),
      enqueueList pl a ((List.range' a N).map (fun i => Prog.act (body i))) =
        (List.range' a N).map
          (fun i => (⟨i, pl, Prog.act (body i)⟩ : QTask σ))
  | 0, a => rfl
  | Nat.succ N, a => by
    rw [List.range'_succ]
    show (⟨a, pl, Prog.act (body a)⟩ : QTask σ) :: enqueueList pl (a + 1) _ = _
    rw [enqueueList_flat pl body N (a + 1)]
    simp

/-- Scenario invariant for a batch of `N` independent closures: the id
counter is pinned at `N`, no task ever suspends, every queued task is
the wrapper of its own index, and every recorded outcome is the
converted result of its task's body. -/
def FlatInv {σ : Type} (body : Nat → σ → σ × RunResult)
    (res : Nat → RunResult) (N : Nat) (s : MState σ) : Prop :=
  s.nextId = N ∧ frames s = [] ∧
  (∀ t ∈ s.queue, t.id < N ∧ t.prog = Prog.act (body t.id)) ∧
  (∀ pr ∈ s.statuses, pr.2 = resultToStatus (res pr.1))

theorem FlatInv_step {σ : Type} {body : Nat → σ → σ × RunResult}
    {res : Nat → RunResult} {N : Nat}
    (hres : ∀ i s1, i < N → (body i s1).2 = res i) :
    ∀ (c : Nat) (s s' : MState σ), step c s = some s' →
      FlatInv body res N s → FlatInv body res N s' := by
  intro c s s' hstep hFlat
  obtain ⟨hN, hfr, hq, hst⟩ := hFlat
  obtain ⟨w, hw, ha⟩ := step_some hstep
  rcases workerAction_cases ha with ⟨F, rest, hstk, _, hs'⟩ | ⟨t, q', hpop, hs'⟩
  · exfalso
    have hmem : F ∈ frames s := by
      rw [frames_decomp hw, hstk]
      simp
    rw [hfr] at hmem
    simp at hmem
  · have hperm := popFirst_perm hpop
    have htq : t ∈ s.queue := hperm.mem_iff.mpr (List.mem_cons_self _ _)
    obtain ⟨hid, hprog⟩ := hq t htq
    have hred : startTask s w t q' =
        runBody ({ s with queue := q' } : MState σ) t.id (body t.id) := by
      simp [startTask, hprog]
    rw [hs', hred]
    refine ⟨hN, hfr, ?_, ?_⟩
    · intro u hu
      have hu' : u ∈ s.queue := hperm.mem_iff.mpr (List.mem_cons_of_mem t hu)
      exact hq u hu'
    · intro pr hpr
      have hpr' : pr ∈ s.statuses ++
          [(t.id, resultToStatus ((body t.id s.shared)).2)] := hpr
      rcases List.mem_append.mp hpr' with h | h
      · exact hst pr h
      · rw [List.mem_singleton.mp h]
        show resultToStatus ((body t.id s.shared)).2 = _
        rw [hres t.id s.shared hid]

/-- Scenario invariant for the counting tests: the shared counter equals
the number of resolved tasks (each body increments it exactly once). -/
def CountInv (s : MState Nat) : Prop := s.shared = s.statuses.length

theorem CountInv_step {body : Nat → Nat → Nat × RunResult}
    {res : Nat → RunResult} {N : Nat}
    (hres : ∀ i s1, i < N → (body i s1).2 = res i)
    (hinc : ∀ i s1, i < N → (body i s1).1 = s1 + 1) :
    ∀ (c : Nat) (s s' : MState Nat), step c s = some s' →
      FlatInv body res N s ∧ CountInv s →
        FlatInv body res N s' ∧ CountInv s' := by
  intro c s s' hstep hP
  obtain ⟨hFlat, hCount⟩ := hP
  refine ⟨FlatInv_step hres c s s' hstep hFlat, ?_⟩
  obtain ⟨hN, hfr, hq, hst⟩ := hFlat
  obtain ⟨w, hw, ha⟩ := step_some hstep
  rcases workerAction_cases ha with ⟨F, rest, hstk, _, hs'⟩ | ⟨t, q', hpop, hs'⟩
  · exfalso
    have hmem : F ∈ frames s := by
      rw [frames_decomp hw, hstk]
      simp
    rw [hfr] at hmem
    simp at hmem
  · have hperm := popFirst_perm hpop
    have htq : t ∈ s.queue := hperm.mem_iff.mpr (List.mem_cons_self _ _)
    obtain ⟨hid, hprog⟩ := hq t htq
    have hred : startTask s w t q' =
        runBody ({ s with queue := q' } : MState Nat) t.id (body t.id) := by
      simp [startTask, hprog]
    rw [hs', hred]
    show (body t.id s.shared).1 =
      (s.statuses ++ [(t.id, resultToStatus ((body t.id s.shared)).2)]).length
    rw [hinc t.id s.shared hid, hCount]
    simp
/-- Initial configuration of the counter tests: a single pool with `k`
workers, shared state `sh`, and the `N` closures of `flatProgs`
submitted to it. -/
def flatStart {σ : Type} (body : Nat → σ → σ × RunResult) (N k : Nat)
    (sh : σ) : MState σ × List Task :=
  (mkState sh [k]).executeMany 0 (flatProgs body N)

theorem poolHasWorker_single {σ : Type} (sh : σ) {k : Nat} (hk : 1 ≤ k) :
    (mkState sh [k]).poolHasWorker 0 = true := by
  apply poolHasWorker_mkState sh (by simp)
  simpa using hk

theorem flatStart_handles {σ : Type} (body : Nat → σ → σ × RunResult)
    (N k : Nat) (sh : σ) (hk : 1 ≤ k) :
    (flatStart body N k sh).2 = (List.range N).map Task.valid := by
  rw [flatStart, executeMany_handles 0 _ _ (poolHasWorker_single sh hk)]
  have h1 : (flatProgs body N : List (Prog σ)).length = N := by
    simp [flatProgs]
  rw [h1]
  have h2 : (mkState sh [k] : MState σ).nextId = 0 := rfl
  rw [h2, ← List.range_eq_range']

theorem flatStart_state {σ : Type} (body : Nat → σ → σ × RunResult)
    (N k : Nat) (sh : σ) (hk : 1 ≤ k) :
    (flatStart body N k sh).1 =
      { mkState sh [k] with
          queue := (List.range N).map
            (fun i => (⟨i, 0, Prog.act (body i)⟩ : QTask σ)),
          nextId := N } := by
  rw [flatStart,
    executeMany_queue_exact 0 _ _ (poolHasWorker_single sh hk)]
  have h2 : (mkState sh [k] : MState σ).nextId = 0 := rfl
  have h3 : (mkState sh [k] : MState σ).queue = [] := rfl
  rw [h2, h3]
  have h4 : enqueueList 0 0 (flatProgs body N : List (Prog σ)) =
      (List.range N).map (fun i => (⟨i, 0, Prog.act (body i)⟩ : QTask σ)) := by
    rw [flatProgs, List.range_eq_range', enqueueList_flat]
  rw [h4]
  have h5 : (flatProgs body N : List (Prog σ)).length = N := by
    simp [flatProgs]
  rw [h5]
  simp

theorem flatStart_FlatInv {σ : Type} (body : Nat → σ → σ × RunResult)
    (res : Nat → RunResult) (N k : Nat) (sh : σ) (hk : 1 ≤ k) :
    FlatInv body res N (flatStart body N k sh).1 := by
  rw [flatStart_state body N k sh hk]
  refine ⟨rfl, ?_, ?_, ?_⟩
  · show frames (mkState sh [k]) = []
    exact frames_mkState sh [k]
  · intro t ht
    have ht' : t ∈ (List.range N).map
        (fun i => (⟨i, 0, Prog.act (body i)⟩ : QTask σ)) := ht
    rw [List.mem_map] at ht'
    obtain ⟨i, hi, hti⟩ := ht'
    rw [← hti]
    exact ⟨List.mem_range.mp hi, rfl⟩
  · intro pr hpr
    have hpr' : pr ∈ (mkState sh [k] : MState σ).statuses := hpr
    simp [mkState] at hpr'

theorem flatStart_Inv {σ : Type} (body : Nat → σ → σ × RunResult)
    (N k : Nat) (sh : σ) : Inv (flatStart body N k sh).1 :=
  Inv_executeMany 0 (flatProgs body N) (Inv_mkState sh [k])

theorem flat_final {σ : Type} (body : Nat → σ → σ × RunResult)
    (res : Nat → RunResult) (N k : Nat) (sh : σ) (sched : Nat → Nat)
    (hk : 1 ≤ k) (hres : ∀ i s1, i < N → (body i s1).2 = res i) :
    (run sched (flatStart body N k sh).1.work 0
        (flatStart body N k sh).1).queue = [] ∧
    frames (run sched (flatStart body N k sh).1.work 0
        (flatStart body N k sh).1) = [] ∧
    (run sched (flatStart body N k sh).1.work 0
        (flatStart body N k sh).1).nextId = N ∧
    (∀ i, i < N →
      (run sched (flatStart body N k sh).1.work 0
        (flatStart body N k sh).1).statuses.lookup i =
          some (resultToStatus (res i))) ∧
    (run sched (flatStart body N k sh).1.work 0
        (flatStart body N k sh).1).statuses.length = N := by
  have hInv0 := flatStart_Inv body N k sh
  have hFlat0 := flatStart_FlatInv body res N k sh hk
  have hInvf := Inv_run sched (flatStart body N k sh).1.work 0 _ hInv0
  have hterm := run_terminal sched (flatStart body N k sh).1.work 0
    (flatStart body N k sh).1 (Nat.le_refl _)
  obtain ⟨hq, hf⟩ := enabled_empty_final hInvf hterm
  have hFlatf := run_preserve (FlatInv body res N) (FlatInv_step hres) sched
    (flatStart body N k sh).1.work 0 (flatStart body N k sh).1 hFlat0
  have hNf := hFlatf.1
  refine ⟨hq, hf, hNf, ?_, ?_⟩
  · intro i hi
    have hsome := final_statuses hInvf hq hf i (by rw [hNf]; exact hi)
    cases hv : (run sched (flatStart body N k sh).1.work 0
        (flatStart body N k sh).1).statuses.lookup i with
    | none => rw [hv] at hsome; simp at hsome
    | some v =>
      have hmem := lookup_mem _ _ _ hv
      have := hFlatf.2.2.2 (i, v) hmem
      exact congrArg some this
  · have hperm := statusIds_perm_range hInvf hq hf
    have hlen := hperm.length_eq
    rw [hNf] at hlen
    simpa [statusIds] using hlen

theorem flat_final_count (body : Nat → Nat → Nat × RunResult)
    (res : Nat → RunResult) (N k : Nat) (sched : Nat → Nat) (hk : 1 ≤ k)
    (hres : ∀ i s1, i < N → (body i s1).2 = res i)
    (hinc : ∀ i s1, i < N → (body i s1).1 = s1 + 1) :
    (run sched (flatStart body N k 0).1.work 0
      (flatStart body N k 0).1).shared = N := by
  have hFlat0 := flatStart_FlatInv body res N k 0 hk
  have hCount0 : CountInv (flatStart body N k 0).1 := by
    rw [flatStart_state body N k 0 hk]
    show (0 : Nat) = ([] : List (Nat × Status)).length
    rfl
  have hP := run_preserve (fun s => FlatInv body res N s ∧ CountInv s)
    (CountInv_step hres hinc) sched (flatStart body N k 0).1.work 0
    (flatStart body N k 0).1 ⟨hFlat0, hCount0⟩
  have hlen := (flat_final body res N k 0 sched hk hres).2.2.2.2
  have hC : (run sched (flatStart body N k 0).1.work 0
      (flatStart body N k 0).1).shared =
      (run sched (flatStart body N k 0).1.work 0
        (flatStart body N k 0).1).statuses.length := hP.2
  rw [hC, hlen]

theorem getD_map {α β : Type} (f : α → β) (d : α) :
    ∀ (l : List α) (i : Nat), i < l.length →
      (l.map f).getD i (f d) = f (l.getD i d)
  | [], i, hi => by simp at hi
  | x :: l, 0, _ => rfl
  | x :: l, Nat.succ i, hi => by
    show (l.map f).getD i (f d) = f (l.getD i d)
    exact getD_map f d l i (by simpa using hi)

theorem run_no_workers {σ : Type} (sched : Nat → Nat) :
    ∀ (fuel t : Nat) (s : MState σ), s.workers = [] →
      run sched fuel t s = s
  | 0, _, s, _ => rfl
  | Nat.succ fuel, t, s, h => by
    have hen : enabledWorkers s = [] := by
      rw [enabledWorkers, h]
      rfl
    show (match step (sched t) s with
      | none => s
      | some s' => run sched fuel (t + 1) s') = s
    have hstep : step (sched t) s = none := by
      rw [step, hen]
    rw [hstep]

theorem wait_all_range {σ : Type} {f : MState σ} {N : Nat} {g : Nat → Status}
    (h : ∀ i, i < N → f.statuses.lookup i = some (g i)) :
    f.wait_all ((List.range N).map Task.valid) =
      firstError ((List.range N).map g) := by
  rw [MState.wait_all, MState.wait_all_status, List.map_map]
  congr 1
  apply List.map_congr_left
  intro i hi
  show f.statusOf (Task.valid i) = g i
  show (f.statuses.lookup i).getD Status.Ok = g i
  rw [h i (List.mem_range.mp hi)]
  rfl

/-- C1 and C5 initial state: the top-level closures `ps` submitted to
pool `pl` of a fresh multi-pool configuration `ks`. -/
def poolsStart {σ : Type} (sh : σ) (ks : List Nat) (pl : Nat)
    (ps : List (Prog σ)) : MState σ × List Task :=
  (mkState sh ks).executeMany pl ps

/-- C1 (P1, P2): for every configuration of pools (each entry of `ks` a
worker count), every submission pool `pl` that has at least one worker,
every batch of closures `ps` — closures may recursively submit any
number `m` of subtasks to any pool (including their own) at any nesting
depth and wait on them, covering both same-pool recursion with `m`
larger than the worker count and mutual recursion across two distinct
pools — and every worker interleaving `sched`: all top-level handles
are valid, and the machine drains completely within its work bound: no
task remains queued, no wait frame remains suspended (so every nested
`wait_all` returned), and every task that was ever spawned has a
resolved outcome.  In particular no schedule can deadlock the
recursion-safe wait protocol. -/
theorem recursion_wait_all_completes {σ : Type} (sh : σ) (ks : List Nat)
    (pl : Nat) (ps : List (Prog σ)) (sched : Nat → Nat)
    (hpl : pl < ks.length) (hk : 1 ≤ ks.getD pl 0) :
    (∀ h ∈ (poolsStart sh ks pl ps).2, h.isValid = true) ∧
    (run sched (poolsStart sh ks pl ps).1.work 0
      (poolsStart sh ks pl ps).1).queue = [] ∧
    frames (run sched (poolsStart sh ks pl ps).1.work 0
      (poolsStart sh ks pl ps).1) = [] ∧
    ∀ i, i < (run sched (poolsStart sh ks pl ps).1.work 0
        (poolsStart sh ks pl ps).1).nextId →
      ((run sched (poolsStart sh ks pl ps).1.work 0
        (poolsStart sh ks pl ps).1).statuses.lookup i).isSome = true := by
  have hpw := poolHasWorker_mkState sh hpl hk
  have hInv0 : Inv (poolsStart sh ks pl ps).1 :=
    Inv_executeMany pl ps (Inv_mkState sh ks)
  have hInvf := Inv_run sched (poolsStart sh ks pl ps).1.work 0 _ hInv0
  have hterm := run_terminal sched (poolsStart sh ks pl ps).1.work 0
    (poolsStart sh ks pl ps).1 (Nat.le_refl _)
  obtain ⟨hq, hf⟩ := enabled_empty_final hInvf hterm
  refine ⟨?_, hq, hf, ?_⟩
  · intro h hmem
    rw [poolsStart, executeMany_handles pl ps _ hpw] at hmem
    rw [List.mem_map] at hmem
    obtain ⟨i, _, hi⟩ := hmem
    rw [← hi]
    rfl
  · exact final_statuses hInvf hq hf

/-- C5: exceptions raised by closures are confined to the worker loop.
In every completed run of any configuration: every raw execution result
in the log has its exception-converted status in the outcome record; in
particular a closure that raised a string exception `m` is resolved with
the failure outcome `Status_TaskError ("Caught " ++ m)` (a non-ok status
carrying a description), the worker survives (the machine keeps
stepping: the run still drains completely), and every other submitted
task still runs to a resolved outcome. -/
theorem exception_converted_confined {σ : Type} (sh : σ) (ks : List Nat)
    (pl : Nat) (ps : List (Prog σ)) (sched : Nat → Nat)
    (hpl : pl < ks.length) (hk : 1 ≤ ks.getD pl 0) :
    (∀ pr ∈ (run sched (poolsStart sh ks pl ps).1.work 0
        (poolsStart sh ks pl ps).1).log,
      (pr.1, resultToStatus pr.2) ∈
        (run sched (poolsStart sh ks pl ps).1.work 0
          (poolsStart sh ks pl ps).1).statuses) ∧
    (∀ i m, (i, RunResult.throwStr m) ∈
        (run sched (poolsStart sh ks pl ps).1.work 0
          (poolsStart sh ks pl ps).1).log →
      (i, Status_TaskError ("Caught " ++ m)) ∈
        (run sched (poolsStart sh ks pl ps).1.work 0
          (poolsStart sh ks pl ps).1).statuses ∧
      (Status_TaskError ("Caught " ++ m)).ok = false) ∧
    (run sched (poolsStart sh ks pl ps).1.work 0
      (poolsStart sh ks pl ps).1).queue = [] ∧
    frames (run sched (poolsStart sh ks pl ps).1.work 0
      (poolsStart sh ks pl ps).1) = [] ∧
    ∀ i, i < (run sched (poolsStart sh ks pl ps).1.work 0
        (poolsStart sh ks pl ps).1).nextId →
      ((run sched (poolsStart sh ks pl ps).1.work 0
        (poolsStart sh ks pl ps).1).statuses.lookup i).isSome = true := by
  have hInv0 : Inv (poolsStart sh ks pl ps).1 :=
    Inv_executeMany pl ps (Inv_mkState sh ks)
  have hInvf := Inv_run sched (poolsStart sh ks pl ps).1.work 0 _ hInv0
  have hterm := run_terminal sched (poolsStart sh ks pl ps).1.work 0
    (poolsStart sh ks pl ps).1 (Nat.le_refl _)
  obtain ⟨hq, hf⟩ := enabled_empty_final hInvf hterm
  have hmap : ∀ pr ∈ (run sched (poolsStart sh ks pl ps).1.work 0
      (poolsStart sh ks pl ps).1).log,
      (pr.1, resultToStatus pr.2) ∈
        (run sched (poolsStart sh ks pl ps).1.work 0
          (poolsStart sh ks pl ps).1).statuses := by
    intro pr hpr
    rw [hInvf.log_statuses]
    exact List.mem_map_of_mem _ hpr
  refine ⟨hmap, ?_, hq, hf, final_statuses hInvf hq hf⟩
  intro i m hmem
  refine ⟨hmap (i, RunResult.throwStr m) hmem, rfl⟩

/-- C9: `execute` on a pool that was never initialized (zero worker
threads) returns an invalid handle, enqueues nothing (the pool state is
unchanged), and the closure is never run: whatever schedule and fuel the
machine is given afterwards, the shared state keeps its prior value and
no outcome is ever recorded; no error is raised (the model is total). -/
theorem execute_zero_thread_noop {σ : Type} (sh : σ) (p : Prog σ)
    (sched : Nat → Nat) (fuel t : Nat) :
    ((mkState sh [0]).execute 0 p).2.isValid = false ∧
    ((mkState sh [0]).execute 0 p).1 = mkState sh [0] ∧
    run sched fuel t ((mkState sh [0]).execute 0 p).1 = mkState sh [0] ∧
    (run sched fuel t ((mkState sh [0]).execute 0 p).1).shared = sh ∧
    (run sched fuel t ((mkState sh [0]).execute 0 p).1).statuses = [] := by
  have hworkers : (mkState sh [0] : MState σ).workers = [] := rfl
  have hpw : (mkState sh [0] : MState σ).poolHasWorker 0 = false := by
    rw [MState.poolHasWorker, hworkers]
    rfl
  have hex : (mkState sh [0] : MState σ).execute 0 p =
      (mkState sh [0], Task.invalid) := by
    rw [MState.execute, hpw]
    simp
  rw [hex]
  have hrun := run_no_workers sched fuel t (mkState sh ([0] : List Nat))
    hworkers
  refine ⟨rfl, rfl, hrun, ?_, ?_⟩
  · rw [hrun]
    rfl
  · rw [hrun]
    rfl

/-- The closure of the counter tests: increment the shared counter and
return `Status::Ok()` (the index argument is ignored by the body). -/
def incBody (i : Nat) : Nat → Nat × RunResult :=
  fun s1 => (s1 + 1, RunResult.ret Status.Ok)

/-- C2 (P4): submitting `N` closures that each increment a shared
counter to a pool with any worker count `k ≥ 1`: every handle is valid,
and for every worker interleaving, once all handles are waited on the
counter equals exactly `N`, the aggregate `wait_all` status is
`Status::Ok()`, and the outcome record holds exactly one entry per
submitted task (no task lost, none run twice). -/
theorem wait_all_exactly_once (N k : Nat) (sched : Nat → Nat)
    (hk : 1 ≤ k) :
    (∀ h ∈ (flatStart incBody N k 0).2, h.isValid = true) ∧
    (flatStart incBody N k 0).2.length = N ∧
    (run sched (flatStart incBody N k 0).1.work 0
      (flatStart incBody N k 0).1).shared = N ∧
    (run sched (flatStart incBody N k 0).1.work 0
      (flatStart incBody N k 0).1).wait_all (flatStart incBody N k 0).2 =
        Status.Ok ∧
    (statusIds (run sched (flatStart incBody N k 0).1.work 0
      (flatStart incBody N k 0).1)).Nodup ∧
    (∀ i, i < N → i ∈ statusIds (run sched
      (flatStart incBody N k 0).1.work 0 (flatStart incBody N k 0).1)) := by
  have hres : ∀ (i : Nat) (s1 : Nat), i < N →
      (incBody i s1).2 = RunResult.ret Status.Ok := by
    intro i s1 _
    rfl
  have hinc : ∀ (i : Nat) (s1 : Nat), i < N → (incBody i s1).1 = s1 + 1 := by
    intro i s1 _
    rfl
  have hhandles := flatStart_handles incBody N k 0 hk
  obtain ⟨hq, hf, hNf, hlook, hlen⟩ :=
    flat_final incBody (fun _ => RunResult.ret Status.Ok) N k 0 sched hk hres
  have hInvf := Inv_run sched (flatStart incBody N k 0).1.work 0 _
    (flatStart_Inv incBody N k 0)
  refine ⟨?_, ?_, ?_, ?_, ?_, ?_⟩
  · intro h hmem
    rw [hhandles] at hmem
    rw [List.mem_map] at hmem
    obtain ⟨i, _, hi⟩ := hmem
    rw [← hi]
    rfl
  · rw [hhandles]
    simp
  · exact flat_final_count incBody (fun _ => RunResult.ret Status.Ok) N k
      sched hk hres hinc
  · rw [hhandles, wait_all_range hlook]
    apply firstError_ok_of_all
    intro st hst
    rw [List.mem_map] at hst
    obtain ⟨i, _, hi⟩ := hst
    rw [← hi]
    rfl
  · exact statusIds_nodup hInvf
  · intro i hi
    have hl := hlook i hi
    show i ∈ (run sched (flatStart incBody N k 0).1.work 0
      (flatStart incBody N k 0).1).statuses.map Prod.fst
    rw [← lookup_isSome_iff, hl]
    rfl

/-- The closure of the strict-order exception test: the closure of index
13 raises a string exception, the closure of index 31 raises a status
exception, all others return `Status::Ok()`; each increments the shared
counter first. -/
def exnRes (i : Nat) : RunResult :=
  if i = 13 then RunResult.throwStr "Unripe banana"
  else if i = 31 then RunResult.throwStatus (Status_TileError "Unbaked potato")
  else RunResult.ret Status.Ok

/-- The test body: increment the counter, then fail or succeed strictly
by submission index. -/
def exnBody (i : Nat) : Nat → Nat × RunResult :=
  fun s1 => (s1 + 1, exnRes i)

/-- C6 (P7): 207 tasks whose failures are determined by submission index
(index 13 raises the string "Unripe banana", index 31 raises the status
`Status_TileError "Unbaked potato"`): for every worker count `k ≥ 1`
and every worker interleaving, `wait_all` reports the earliest-submitted
failing index's error — `Status_TaskError "Caught Unripe banana"`, index
13's converted exception — and all 207 closures still run (counter
reaches 207). -/
theorem wait_all_earliest_submitted_failure (k : Nat) (sched : Nat → Nat)
    (hk : 1 ≤ k) :
    (run sched (flatStart exnBody 207 k 0).1.work 0
      (flatStart exnBody 207 k 0).1).wait_all (flatStart exnBody 207 k 0).2 =
        Status_TaskError "Caught Unripe banana" ∧
    (run sched (flatStart exnBody 207 k 0).1.work 0
      (flatStart exnBody 207 k 0).1).shared = 207 := by
  have hres : ∀ (i : Nat) (s1 : Nat), i < 207 →
      (exnBody i s1).2 = exnRes i := by
    intro i s1 _
    rfl
  have hinc : ∀ (i : Nat) (s1 : Nat), i < 207 → (exnBody i s1).1 = s1 + 1 := by
    intro i s1 _
    rfl
  have hhandles := flatStart_handles exnBody 207 k 0 hk
  obtain ⟨hq, hf, hNf, hlook, hlen⟩ :=
    flat_final exnBody exnRes 207 k 0 sched hk hres
  refine ⟨?_, ?_⟩
  · rw [hhandles, wait_all_range hlook]
    decide
  · exact flat_final_count exnBody exnRes 207 k sched hk hres hinc

/-- Modelled from the spec: pool destruction with best-effort drain.
The drain policy is an open choice in the spec (sections 4.2 and 9); the
reference test "Test no wait" documents "everything should still
complete", so the destructor is modelled as running the machine until no
worker can act. -/
def shutdownDrain {σ : Type} (sched : Nat → Nat) (s : MState σ) : MState σ :=
  run sched s.work 0 s

/-- C10: a pool destroyed while accepted tasks are still queued or
running, none of whose handles were waited on, still executes every
accepted closure to completion before destruction finishes: after the
destructor's drain, the shared counter equals the number of accepted
closures and every accepted task has a resolved outcome, for every
worker count `k ≥ 1` and every interleaving. -/
theorem destructor_drains_outstanding (N k : Nat) (sched : Nat → Nat)
    (hk : 1 ≤ k) :
    (∀ h ∈ (flatStart incBody N k 0).2, h.isValid = true) ∧
    (shutdownDrain sched (flatStart incBody N k 0).1).shared = N ∧
    (∀ i, i < N →
      ((shutdownDrain sched (flatStart incBody N k 0).1).statuses.lookup
        i).isSome = true) := by
  have hres : ∀ (i : Nat) (s1 : Nat), i < N →
      (incBody i s1).2 = RunResult.ret Status.Ok := by
    intro i s1 _
    rfl
  have hinc : ∀ (i : Nat) (s1 : Nat), i < N → (incBody i s1).1 = s1 + 1 := by
    intro i s1 _
    rfl
  obtain ⟨hq, hf, hNf, hlook, hlen⟩ :=
    flat_final incBody (fun _ => RunResult.ret Status.Ok) N k 0 sched hk hres
  refine ⟨?_, ?_, ?_⟩
  · intro h hmem
    rw [flatStart_handles incBody N k 0 hk] at hmem
    rw [List.mem_map] at hmem
    obtain ⟨i, _, hi⟩ := hmem
    rw [← hi]
    rfl
  · exact flat_final_count incBody (fun _ => RunResult.ret Status.Ok) N k
      sched hk hres hinc
  · intro i hi
    show ((run sched (flatStart incBody N k 0).1.work 0
      (flatStart incBody N k 0).1).statuses.lookup i).isSome = true
    rw [hlook i hi]
    rfl

/-- C3 (P3): `wait_all_status` is strictly positional: on any machine
state (hence after any completed run, regardless of the order in which
tasks actually finished) and any handle collection, the returned vector
has the same length as the input, and its entry at index `i` is exactly
the recorded outcome of the task whose handle was at position `i` of the
input (an invalid handle reading as an immediately-resolved success). -/
theorem wait_all_status_positional {σ : Type} (s : MState σ)
    (hs : List Task) :
    (s.wait_all_status hs).length = hs.length ∧
    ∀ i, i < hs.length →
      (s.wait_all_status hs).getD i Status.Ok =
        s.statusOf (hs.getD i Task.invalid) := by
  refine ⟨by simp [MState.wait_all_status], ?_⟩
  intro i hi
  show (hs.map s.statusOf).getD i Status.Ok =
    s.statusOf (hs.getD i Task.invalid)
  exact getD_map s.statusOf Task.invalid hs i hi

/-- C4: the aggregate `wait_all` returns `Status::Ok()` exactly when
every waited-on handle's outcome is ok (invalid handles count as
immediately-resolved successes), and when it is not ok, the status it
returns is the recorded failure outcome of one of the waited-on handles
(which failing task's error is reported is left to the aggregation
order). -/
theorem wait_all_aggregates_failure {σ : Type} (s : MState σ)
    (hs : List Task) :
    (s.wait_all hs = Status.Ok ↔ ∀ h ∈ hs, (s.statusOf h).ok = true) ∧
    (s.wait_all hs ≠ Status.Ok →
      ∃ h ∈ hs, s.statusOf h = s.wait_all hs ∧ (s.statusOf h).ok = false) := by
  constructor
  · constructor
    · intro hok h hmem
      rcases firstError_spec (s.wait_all_status hs) with ⟨_, h2⟩ | ⟨h1, h2⟩
      · exact h2 _ (List.mem_map_of_mem _ hmem)
      · exfalso
        have : (s.wait_all hs).ok = false := h2
        rw [hok] at this
        simp [Status.ok, Status.Ok] at this
    · intro hall
      apply firstError_ok_of_all
      intro st hst
      rw [MState.wait_all_status, List.mem_map] at hst
      obtain ⟨h, hmem, hh⟩ := hst
      rw [← hh]
      exact hall h hmem
  · intro hne
    rcases firstError_spec (s.wait_all_status hs) with ⟨h1, _⟩ | ⟨h1, h2⟩
    · exact absurd h1 hne
    · rw [MState.wait_all_status, List.mem_map] at h1
      obtain ⟨h, hmem, hh⟩ := h1
      refine ⟨h, hmem, hh, ?_⟩
      rw [hh]
      exact h2

/-- Modelled from the spec: the shared state of the cancellation
scenario: `cnt` counts user closures that ran to completion (the shared
counter of the test), `ncancel` counts cancellation callbacks that
fired, `reg` is the Cancelable Task Registry's id map (id to cancelled
flag), and `ranIds` records which task ids actually ran their user
closure. -/
structure CancelState where
  cnt : Nat
  ncancel : Nat
  reg : List (Nat × Bool)
  ranIds : List Nat
deriving DecidableEq

/-- Modelled from the spec: the distinguished *cancelled* outcome used
to resolve the handle of a task skipped by the registry — not a generic
task failure. -/
def cancelledStatus : Status := ⟨StatusCode.cancelled, "Task cancelled"⟩

/-- Modelled from the spec (section 4.3): the wrapper that the
Cancelable Task Registry's `execute` puts around the user closure of
task `i`.  Immediately before running the user closure it checks whether
id `i` was already cancelled: if so it skips the user closure, fires the
cancellation callback (counted in `ncancel`) and resolves with the
distinguished cancelled outcome; otherwise it runs the user closure
(counted in `cnt`, the id recorded in `ranIds`, the user result `res i`
returned) and deregisters the id. -/
def wrapBody (res : Nat → RunResult) (i : Nat) :
    CancelState → CancelState × RunResult :=
  fun st =>
    match st.reg.lookup i with
    | some true =>
      ({ st with ncancel := st.ncancel + 1 }, RunResult.ret cancelledStatus)
    | _ =>
      ({ st with
          cnt := st.cnt + 1,
          ranIds := st.ranIds ++ [i],
          reg := st.reg.filter (fun pr => pr.1 != i) }, res i)

/-- Modelled from the spec: `CancelableTasks::cancel_all_tasks` marks
every currently-registered id as cancelled; tasks already past the
cancellation check are not interrupted. -/
def CancelableTasks.cancel_all_tasks (st : CancelState) : CancelState :=
  { st with reg := st.reg.map (fun pr => (pr.1, true)) }

/-- The cancellation test scenario: `T` tasks, each registered in the
registry (uncancelled) before any can start, submitted through the
registry wrapper to a pool with `k` workers. -/
def cancelStart (res : Nat → RunResult) (T k : Nat) :
    MState CancelState × List Task :=
  flatStart (wrapBody res) T k
    ⟨0, 0, (List.range T).map (fun i => (i, false)), []⟩

/-- Run `c` machine steps, then cancel all still-registered tasks from
the main thread (the racy cancellation point of the test: `c` ranges
over all possible moments), then drain. -/
def runWithCancel (sched : Nat → Nat) (c : Nat) (s : MState CancelState) :
    MState CancelState :=
  run sched
    ({ run sched c 0 s with
        shared := CancelableTasks.cancel_all_tasks (run sched c 0 s).shared
      } : MState CancelState).work c
    ({ run sched c 0 s with
        shared := CancelableTasks.cancel_all_tasks (run sched c 0 s).shared
      } : MState CancelState)

/-- Scenario invariant of the cancellation tests: ids pinned, no
suspension, queued tasks are registry wrappers of their own index, every
outcome is either the distinguished cancelled status or the user
closure's converted result, the shared counters agree with the outcome
record, and `ranIds` is exactly the list of tasks with a non-cancelled
outcome. -/
def CInv (res : Nat → RunResult) (T : Nat) (s : MState CancelState) : Prop :=
  s.nextId = T ∧ frames s = [] ∧
  (∀ t ∈ s.queue, t.id < T ∧ t.prog = Prog.act (wrapBody res t.id)) ∧
  (∀ pr ∈ s.statuses,
    pr.2 = cancelledStatus ∨ pr.2 = resultToStatus (res pr.1)) ∧
  s.shared.cnt = s.statuses.countP (fun pr => pr.2 != cancelledStatus) ∧
  s.shared.ncancel = s.statuses.countP (fun pr => pr.2 == cancelledStatus) ∧
  s.shared.ranIds =
    (s.statuses.filter (fun pr => pr.2 != cancelledStatus)).map Prod.fst

theorem CInv_cancel {res : Nat → RunResult} {T : Nat}
    {s : MState CancelState} (h : CInv res T s) :
    CInv res T ({ s with
      shared := CancelableTasks.cancel_all_tasks s.shared } : MState CancelState) := by
  obtain ⟨h1, h2, h3, h4, h5, h6, h7⟩ := h
  exact ⟨h1, h2, h3, h4, h5, h6, h7⟩

theorem Inv_shared {σ : Type} {s : MState σ} {x : σ} (h : Inv s) :
    Inv ({ s with shared := x } : MState σ) :=
  ⟨h.queue_pool, h.push_lt, h.stack_sorted, h.waiting_ok, h.ids_lt,
    h.ids_nodup, h.ids_cover, h.log_statuses⟩

theorem wrapBody_cancelled (res : Nat → RunResult) (i : Nat)
    (st : CancelState) (h : st.reg.lookup i = some true) :
    wrapBody res i st =
      ({ st with ncancel := st.ncancel + 1 },
        RunResult.ret cancelledStatus) := by
  show (match st.reg.lookup i with
    | some true =>
      ({ st with ncancel := st.ncancel + 1 }, RunResult.ret cancelledStatus)
    | _ =>
      ({ st with
          cnt := st.cnt + 1,
          ranIds := st.ranIds ++ [i],
          reg := st.reg.filter (fun pr => pr.1 != i) }, res i)) = _
  rw [h]

theorem wrapBody_run (res : Nat → RunResult) (i : Nat) (st : CancelState)
    (h : st.reg.lookup i = none ∨ st.reg.lookup i = some false) :
    wrapBody res i st =
      ({ st with
          cnt := st.cnt + 1,
          ranIds := st.ranIds ++ [i],
          reg := st.reg.filter (fun pr => pr.1 != i) }, res i) := by
  show (match st.reg.lookup i with
    | some true =>
      ({ st with ncancel := st.ncancel + 1 }, RunResult.ret cancelledStatus)
    | _ =>
      ({ st with
          cnt := st.cnt + 1,
          ranIds := st.ranIds ++ [i],
          reg := st.reg.filter (fun pr => pr.1 != i) }, res i)) = _
  rcases h with h | h
  · rw [h]
  · rw [h]

theorem CInv_step {res : Nat → RunResult} {T : Nat}
    (hres : ∀ i, resultToStatus (res i) ≠ cancelledStatus) :
    ∀ (c : Nat) (s s' : MState CancelState), step c s = some s' →
      CInv res T s → CInv res T s' := by
  intro c s s' hstep hC
  obtain ⟨hN, hfr, hq, hpart, hcnt, hnc, hran⟩ := hC
  obtain ⟨w, hw, ha⟩ := step_some hstep
  rcases workerAction_cases ha with ⟨F, rest, hstk, _, hs'⟩ | ⟨t, q', hpop, hs'⟩
  · exfalso
    have hmem : F ∈ frames s := by
      rw [frames_decomp hw, hstk]
      simp
    rw [hfr] at hmem
    simp at hmem
  · have hperm := popFirst_perm hpop
    have htq : t ∈ s.queue := hperm.mem_iff.mpr (List.mem_cons_self _ _)
    obtain ⟨hid, hprog⟩ := hq t htq
    have hred : startTask s w t q' =
        runBody ({ s with queue := q' } : MState CancelState) t.id
          (wrapBody res t.id) := by
      simp [startTask, hprog]
    rw [hs', hred]
    have hqueue' : ∀ u ∈ q',
        u.id < T ∧ u.prog = Prog.act (wrapBody res u.id) := by
      intro u hu
      exact hq u (hperm.mem_iff.mpr (List.mem_cons_of_mem t hu))
    rcases hl : s.shared.reg.lookup t.id with _ | b
    case _ =>
      have hb := wrapBody_run res t.id s.shared (Or.inl hl)
      refine ⟨hN, hfr, hqueue', ?_, ?_, ?_, ?_⟩
      · intro pr hpr
        rcases List.mem_append.mp hpr with h | h
        · exact hpart pr h
        · right
          rw [List.mem_singleton.mp h]
          show resultToStatus ((wrapBody res t.id s.shared)).2 = _
          rw [hb]
      · show ((wrapBody res t.id s.shared)).1.cnt = _
        rw [hb]
        show s.shared.cnt + 1 = (s.statuses ++
          [(t.id, resultToStatus ((wrapBody res t.id s.shared)).2)]).countP _
        rw [hb, List.countP_append, hcnt]
        have hne : ((resultToStatus (res t.id) != cancelledStatus)) = true := by
          simpa using hres t.id
        simp [List.countP_cons, hne]
      · show ((wrapBody res t.id s.shared)).1.ncancel = _
        rw [hb]
        show s.shared.ncancel = (s.statuses ++
          [(t.id, resultToStatus ((wrapBody res t.id s.shared)).2)]).countP _
        rw [hb, List.countP_append, hnc]
        have hne : ((resultToStatus (res t.id) == cancelledStatus)) = false := by
          simpa using hres t.id
        simp [List.countP_cons, hne]
      · show ((wrapBody res t.id s.shared)).1.ranIds = _
        rw [hb]
        show s.shared.ranIds ++ [t.id] = ((s.statuses ++
          [(t.id, resultToStatus ((wrapBody res t.id s.shared)).2)]).filter
            _).map Prod.fst
        rw [hb, List.filter_append, hran]
        have hne : ((resultToStatus (res t.id) != cancelledStatus)) = true := by
          simpa using hres t.id
        simp [hne]
    case _ =>
      cases b
      case _ =>
        have hb := wrapBody_run res t.id s.shared (Or.inr hl)
        refine ⟨hN, hfr, hqueue', ?_, ?_, ?_, ?_⟩
        · intro pr hpr
          rcases List.mem_append.mp hpr with h | h
          · exact hpart pr h
          · right
            rw [List.mem_singleton.mp h]
            show resultToStatus ((wrapBody res t.id s.shared)).2 = _
            rw [hb]
        · have hne : ((resultToStatus (res t.id) != cancelledStatus)) = true := by
            simpa using hres t.id
          simp [runBody, hb, List.countP_append, List.countP_cons, hcnt, hne]
        · have hne : ((resultToStatus (res t.id) == cancelledStatus)) = false := by
            simpa using hres t.id
          simp [runBody, hb, List.countP_append, List.countP_cons, hnc, hne]
        · have hne : ((resultToStatus (res t.id) != cancelledStatus)) = true := by
            simpa using hres t.id
          simp [runBody, hb, List.filter_append, hran, hne]
      case _ =>
        have hb := wrapBody_cancelled res t.id s.shared hl
        refine ⟨hN, hfr, hqueue', ?_, ?_, ?_, ?_⟩
        · intro pr hpr
          rcases List.mem_append.mp hpr with h | h
          · exact hpart pr h
          · left
            rw [List.mem_singleton.mp h]
            show resultToStatus ((wrapBody res t.id s.shared)).2 = _
            rw [hb]
            rfl
        · simp [runBody, hb, List.countP_append, List.countP_cons, hcnt,
            resultToStatus]
        · simp [runBody, hb, List.countP_append, List.countP_cons, hnc,
            resultToStatus]
        · simp [runBody, hb, List.filter_append, hran, resultToStatus]
theorem countP_bne_add_beq (cStat : Status) :
    ∀ l : List (Nat × Status),
      l.countP (fun pr => pr.2 != cStat) +
        l.countP (fun pr => pr.2 == cStat) = l.length
  | [] => rfl
  | pr :: l => by
    have ih := countP_bne_add_beq cStat l
    by_cases h : pr.2 = cStat <;>
      simp [List.countP_cons, h] <;>
      omega

theorem cancelStart_CInv (res : Nat → RunResult) (T k : Nat) (hk : 1 ≤ k) :
    CInv res T (cancelStart res T k).1 := by
  show CInv res T (flatStart (wrapBody res) T k
    ⟨0, 0, (List.range T).map (fun i => (i, false)), []⟩).1
  rw [flatStart_state (wrapBody res) T k _ hk]
  refine ⟨rfl, ?_, ?_, ?_, rfl, rfl, rfl⟩
  · show frames (mkState (⟨0, 0, (List.range T).map (fun i => (i, false)),
      []⟩ : CancelState) [k]) = []
    exact frames_mkState _ [k]
  · intro t ht
    have ht' : t ∈ (List.range T).map
        (fun i => (⟨i, 0, Prog.act (wrapBody res i)⟩ : QTask CancelState)) := ht
    rw [List.mem_map] at ht'
    obtain ⟨i, hi, hti⟩ := ht'
    rw [← hti]
    exact ⟨List.mem_range.mp hi, rfl⟩
  · intro pr hpr
    have hpr' : pr ∈ (mkState (⟨0, 0, (List.range T).map (fun i => (i, false)),
        []⟩ : CancelState) [k]).statuses := hpr
    simp [mkState] at hpr'

theorem cancel_run_facts (res : Nat → RunResult) (T k c : Nat)
    (sched : Nat → Nat) (hk : 1 ≤ k)
    (hres : ∀ i, resultToStatus (res i) ≠ cancelledStatus) :
    (runWithCancel sched c (cancelStart res T k).1).shared.cnt +
      (runWithCancel sched c (cancelStart res T k).1).shared.ncancel = T ∧
    (∀ i st,
      (runWithCancel sched c (cancelStart res T k).1).statuses.lookup i =
        some st → st = cancelledStatus ∨ st = resultToStatus (res i)) ∧
    (∀ i st,
      (runWithCancel sched c (cancelStart res T k).1).statuses.lookup i =
        some st →
      (st = cancelledStatus ↔
        i ∉ (runWithCancel sched c (cancelStart res T k).1).shared.ranIds)) ∧
    (∀ i, i < T →
      ((runWithCancel sched c
        (cancelStart res T k).1).statuses.lookup i).isSome = true) ∧
    (statusIds (runWithCancel sched c (cancelStart res T k).1)).Nodup := by
  have hC0 := cancelStart_CInv res T k hk
  have hI0 : Inv (cancelStart res T k).1 :=
    flatStart_Inv (wrapBody res) T k
      ⟨0, 0, (List.range T).map (fun i => (i, false)), []⟩
  have hC1 := run_preserve (CInv res T) (CInv_step hres) sched c 0
    (cancelStart res T k).1 hC0
  have hI1 := Inv_run sched c 0 (cancelStart res T k).1 hI0
  have hC2 := CInv_cancel hC1
  have hI2 : Inv ({ run sched c 0 (cancelStart res T k).1 with
      shared := CancelableTasks.cancel_all_tasks
        (run sched c 0 (cancelStart res T k).1).shared
    } : MState CancelState) := Inv_shared hI1
  have hCf := run_preserve (CInv res T) (CInv_step hres) sched
    ({ run sched c 0 (cancelStart res T k).1 with
        shared := CancelableTasks.cancel_all_tasks
          (run sched c 0 (cancelStart res T k).1).shared
      } : MState CancelState).work c _ hC2
  have hIf := Inv_run sched
    ({ run sched c 0 (cancelStart res T k).1 with
        shared := CancelableTasks.cancel_all_tasks
          (run sched c 0 (cancelStart res T k).1).shared
      } : MState CancelState).work c _ hI2
  have hterm := run_terminal sched
    ({ run sched c 0 (cancelStart res T k).1 with
        shared := CancelableTasks.cancel_all_tasks
          (run sched c 0 (cancelStart res T k).1).shared
      } : MState CancelState).work c _ (Nat.le_refl _)
  obtain ⟨hq, hf⟩ := enabled_empty_final hIf hterm
  have hCff : CInv res T (runWithCancel sched c (cancelStart res T k).1) := hCf
  have hIff : Inv (runWithCancel sched c (cancelStart res T k).1) := hIf
  have hqf : (runWithCancel sched c (cancelStart res T k).1).queue = [] := hq
  have hff : frames (runWithCancel sched c (cancelStart res T k).1) = [] := hf
  obtain ⟨hNf, _, _, hpartf, hcntf, hncf, hranf⟩ := hCff
  have hnodup := statusIds_nodup hIff
  have hlen : (runWithCancel sched c
      (cancelStart res T k).1).statuses.length = T := by
    have hperm := statusIds_perm_range hIff hqf hff
    have := hperm.length_eq
    rw [hNf] at this
    simpa [statusIds] using this
  have hpart' : ∀ i st,
      (runWithCancel sched c (cancelStart res T k).1).statuses.lookup i =
        some st → st = cancelledStatus ∨ st = resultToStatus (res i) := by
    intro i st hl
    have hmem := lookup_mem _ _ _ hl
    exact hpartf (i, st) hmem
  refine ⟨?_, hpart', ?_, ?_, hnodup⟩
  · rw [hcntf, hncf, countP_bne_add_beq, hlen]
  · intro i st hl
    have hmem := lookup_mem _ _ _ hl
    constructor
    · intro hcanc hin
      rw [hranf] at hin
      rw [List.mem_map] at hin
      obtain ⟨pr, hprf, hpri⟩ := hin
      rw [List.mem_filter] at hprf
      have hpr2 : pr.2 = st := by
        have : (pr.1, pr.2) ∈ (runWithCancel sched c
            (cancelStart res T k).1).statuses := hprf.1
        rw [hpri] at this
        exact mem_eq_of_nodup_keys hnodup this hmem
      have := hprf.2
      rw [hpr2, hcanc] at this
      simp at this
    · intro hnin
      rcases hpartf (i, st) hmem with h | h
      · exact h
      · exfalso
        apply hnin
        rw [hranf]
        have h' : st = resultToStatus (res i) := h
        have hne : ((i, st).2 != cancelledStatus) = true := by
          show (st != cancelledStatus) = true
          rw [h']
          simpa using hres i
        have : (i, st) ∈ ((runWithCancel sched c
            (cancelStart res T k).1).statuses.filter
              (fun pr => pr.2 != cancelledStatus)) :=
          List.mem_filter.mpr ⟨hmem, hne⟩
        exact List.mem_map_of_mem Prod.fst this
  · intro i hi
    exact final_statuses hIff hqf hff i (by rw [hNf]; exact hi)

/-- C7 (P5): for every set of `T` tasks submitted through the Cancelable
Task Registry to a `k ≥ 1`-worker pool, with `cancel_all_tasks` issued
after any number `c` of scheduler steps and under any interleaving: the
number of tasks whose user closure ran (`cnt`) plus the number whose
cancellation callback fired (`ncancel`) equals `T` exactly; every task
gets exactly one resolved outcome, and that outcome is the distinguished
cancelled status exactly when the task's user closure never ran — so no
task is both executed and cancelled, and cancelled tasks never execute
their normal body.  (`res i` is the user closure's own result; the
hypothesis says user closures do not themselves return the reserved
cancelled outcome.) -/
theorem cancellation_partition (res : Nat → RunResult) (T k c : Nat)
    (sched : Nat → Nat) (hk : 1 ≤ k)
    (hcode : ∀ i, (resultToStatus (res i)).code ≠ StatusCode.cancelled) :
    (∀ h ∈ (cancelStart res T k).2, h.isValid = true) ∧
    (cancelStart res T k).2.length = T ∧
    (runWithCancel sched c (cancelStart res T k).1).shared.cnt +
      (runWithCancel sched c (cancelStart res T k).1).shared.ncancel = T ∧
    (∀ i st,
      (runWithCancel sched c (cancelStart res T k).1).statuses.lookup i =
        some st →
      (st = cancelledStatus ↔
        i ∉ (runWithCancel sched c (cancelStart res T k).1).shared.ranIds)) ∧
    (∀ i, i < T →
      ((runWithCancel sched c
        (cancelStart res T k).1).statuses.lookup i).isSome = true) ∧
    (statusIds (runWithCancel sched c (cancelStart res T k).1)).Nodup := by
  have hres : ∀ i, resultToStatus (res i) ≠ cancelledStatus := by
    intro i h
    exact hcode i (by rw [h]; rfl)
  obtain ⟨h1, h2, h3, h4, h5⟩ := cancel_run_facts res T k c sched hk hres
  have hhandles : (cancelStart res T k).2 =
      (List.range T).map Task.valid :=
    flatStart_handles (wrapBody res) T k _ hk
  refine ⟨?_, ?_, h1, h3, h4, h5⟩
  · intro h hmem
    rw [hhandles] at hmem
    rw [List.mem_map] at hmem
    obtain ⟨i, _, hi⟩ := hmem
    rw [← hi]
    rfl
  · rw [hhandles]
    simp

/-- C8: a task cancelled by the registry before starting resolves with
the distinguished cancelled outcome, whose status code differs from
every failure code (generic error, task error, tile error) and from ok;
in the cancellation scenario a recorded outcome has the cancelled code
exactly when that task's user closure never ran, so a caller can
distinguish tasks that ran (and possibly failed) from tasks that never
ran. -/
theorem cancelled_outcome_distinguished (res : Nat → RunResult)
    (T k c : Nat) (sched : Nat → Nat) (hk : 1 ≤ k)
    (hcode : ∀ i, (resultToStatus (res i)).code ≠ StatusCode.cancelled) :
    cancelledStatus.code = StatusCode.cancelled ∧
    (cancelledStatus.code ≠ StatusCode.error ∧
      cancelledStatus.code ≠ StatusCode.taskError ∧
      cancelledStatus.code ≠ StatusCode.tileError ∧
      cancelledStatus.code ≠ StatusCode.ok) ∧
    (∀ i st,
      (runWithCancel sched c (cancelStart res T k).1).statuses.lookup i =
        some st →
      (st.code = StatusCode.cancelled ↔
        i ∉ (runWithCancel sched c (cancelStart res T k).1).shared.ranIds)) := by
  have hres : ∀ i, resultToStatus (res i) ≠ cancelledStatus := by
    intro i h
    exact hcode i (by rw [h]; rfl)
  obtain ⟨h1, h2, h3, h4, h5⟩ := cancel_run_facts res T k c sched hk hres
  refine ⟨rfl, ⟨by decide, by decide, by decide, by decide⟩, ?_⟩
  intro i st hl
  constructor
  · intro hc
    apply (h3 i st hl).mp
    rcases h2 i st hl with h | h
    · exact h
    · exfalso
      apply hcode i
      rw [← h]
      exact hc
  · intro hnin
    rw [(h3 i st hl).mpr hnin]
    rfl

/-- Witness program pieces: an incrementing leaf closure and a no-op
completion body. -/
def incProgW : Prog Nat := Prog.act (fun s => (s + 1, RunResult.ret Status.Ok))

/-- Completion body that leaves the counter unchanged. -/
def retOkW : Nat → Nat × RunResult := fun s => (s, RunResult.ret Status.Ok)

/-- Cross-pool witness program: a task in pool 0 submits two subtasks to
pool 1 and waits; each of those submits subtasks back into pool 0 (three
and two increments respectively) and waits — depth 3, fan-out larger
than either pool's single worker. -/
def crossProgW : Prog Nat :=
  Prog.spawnWait 1
    [Prog.spawnWait 0 [incProgW, incProgW, incProgW] retOkW,
      Prog.spawnWait 0 [incProgW, incProgW] retOkW]
    retOkW

theorem recursion_wait_all_completes_witness :
    (0 < [1, 1].length ∧ 1 ≤ [1, 1].getD 0 0) ∧
    (run (fun t => t)
      (poolsStart (0 : Nat) [1, 1] 0 [crossProgW]).1.work 0
      (poolsStart (0 : Nat) [1, 1] 0 [crossProgW]).1).queue = [] ∧
    frames (run (fun t => t)
      (poolsStart (0 : Nat) [1, 1] 0 [crossProgW]).1.work 0
      (poolsStart (0 : Nat) [1, 1] 0 [crossProgW]).1) = [] :=
  ⟨⟨by decide, by decide⟩,
    (recursion_wait_all_completes (0 : Nat) [1, 1] 0 [crossProgW]
      (fun t => t) (by decide) (by decide)).2.1,
    (recursion_wait_all_completes (0 : Nat) [1, 1] 0 [crossProgW]
      (fun t => t) (by decide) (by decide)).2.2.1⟩

theorem wait_all_exactly_once_witness :
    1 ≤ 2 ∧
    (run (fun t => t) (flatStart incBody 5 2 0).1.work 0
      (flatStart incBody 5 2 0).1).shared = 5 ∧
    (run (fun t => t) (flatStart incBody 5 2 0).1.work 0
      (flatStart incBody 5 2 0).1).wait_all (flatStart incBody 5 2 0).2 =
        Status.Ok :=
  ⟨by decide,
    (wait_all_exactly_once 5 2 (fun t => t) (by decide)).2.2.1,
    (wait_all_exactly_once 5 2 (fun t => t) (by decide)).2.2.2.1⟩

/-- A concrete resolved machine state used by the positionality and
aggregation witnesses. -/
def wsState : MState Nat :=
  { shared := 0,
    queue := [],
    workers := [],
    statuses := [(0, Status.Ok), (1, Status_Error "boom")],
    log := [(0, RunResult.ret Status.Ok),
      (1, RunResult.ret (Status_Error "boom"))],
    nextId := 2,
    nextPush := 0 }

/-- Concrete handles, deliberately out of submission order and with an
invalid handle included. -/
def wsHandles : List Task := [Task.valid 1, Task.valid 0, Task.invalid]

theorem wait_all_status_positional_witness :
    (wsState.wait_all_status wsHandles).length = wsHandles.length ∧
    1 < wsHandles.length ∧
    (wsState.wait_all_status wsHandles).getD 1 Status.Ok =
      wsState.statusOf (wsHandles.getD 1 Task.invalid) :=
  ⟨(wait_all_status_positional wsState wsHandles).1, by decide,
    (wait_all_status_positional wsState wsHandles).2 1 (by decide)⟩

theorem wait_all_aggregates_failure_witness :
    wsState.wait_all wsHandles ≠ Status.Ok ∧
    ∃ h ∈ wsHandles, wsState.statusOf h = wsState.wait_all wsHandles ∧
      (wsState.statusOf h).ok = false :=
  ⟨by decide, (wait_all_aggregates_failure wsState wsHandles).2 (by decide)⟩

/-- Witness closure that raises a string exception when executed. -/
def thrProgW : Prog Nat :=
  Prog.act (fun s => (s, RunResult.throwStr "Unripe banana"))

theorem exception_converted_confined_witness :
    (0 < [2].length ∧ 1 ≤ [2].getD 0 0) ∧
    (0, RunResult.throwStr "Unripe banana") ∈
      (run (fun t => t)
        (poolsStart (0 : Nat) [2] 0 [thrProgW, incProgW]).1.work 0
        (poolsStart (0 : Nat) [2] 0 [thrProgW, incProgW]).1).log ∧
    (0, Status_TaskError ("Caught " ++ "Unripe banana")) ∈
      (run (fun t => t)
        (poolsStart (0 : Nat) [2] 0 [thrProgW, incProgW]).1.work 0
        (poolsStart (0 : Nat) [2] 0 [thrProgW, incProgW]).1).statuses ∧
    (Status_TaskError ("Caught " ++ "Unripe banana")).ok = false :=
  ⟨⟨by decide, by decide⟩, by decide,
    (exception_converted_confined (0 : Nat) [2] 0 [thrProgW, incProgW]
      (fun t => t) (by decide) (by decide)).2.1 0 "Unripe banana" (by decide)⟩

theorem wait_all_earliest_submitted_failure_witness :
    1 ≤ 7 ∧
    (run (fun t => t + 3) (flatStart exnBody 207 7 0).1.work 0
      (flatStart exnBody 207 7 0).1).wait_all (flatStart exnBody 207 7 0).2 =
        Status_TaskError "Caught Unripe banana" :=
  ⟨by decide,
    (wait_all_earliest_submitted_failure 7 (fun t => t + 3) (by decide)).1⟩

/-- Witness user closures for the cancellation scenario: task 0's
closure fails with a generic error, the others succeed. -/
def resW : Nat → RunResult := fun i =>
  if i = 0 then RunResult.ret (Status_Error "fail") else RunResult.ret Status.Ok

theorem resW_code (i : Nat) :
    (resultToStatus (resW i)).code ≠ StatusCode.cancelled := by
  by_cases h : i = 0 <;> simp [resW, h, resultToStatus, Status_Error,
    Status.Ok] <;> decide

theorem cancellation_partition_witness :
    (1 ≤ 2 ∧ ∀ i, (resultToStatus (resW i)).code ≠ StatusCode.cancelled) ∧
    (runWithCancel (fun t => t) 2 (cancelStart resW 3 2).1).shared.cnt +
      (runWithCancel (fun t => t) 2 (cancelStart resW 3 2).1).shared.ncancel =
        3 :=
  ⟨⟨by decide, resW_code⟩,
    (cancellation_partition resW 3 2 2 (fun t => t) (by decide)
      resW_code).2.2.1⟩

theorem cancelled_outcome_distinguished_witness :
    (1 ≤ 2 ∧ ∀ i, (resultToStatus (resW i)).code ≠ StatusCode.cancelled) ∧
    cancelledStatus.code = StatusCode.cancelled ∧
    cancelledStatus.code ≠ StatusCode.error ∧
    cancelledStatus.code ≠ StatusCode.taskError :=
  ⟨⟨by decide, resW_code⟩,
    (cancelled_outcome_distinguished resW 4 2 1 (fun t => t) (by decide)
      resW_code).1,
    (cancelled_outcome_distinguished resW 4 2 1 (fun t => t) (by decide)
      resW_code).2.1.1,
    (cancelled_outcome_distinguished resW 4 2 1 (fun t => t) (by decide)
      resW_code).2.1.2.1⟩

theorem destructor_drains_outstanding_witness :
    1 ≤ 4 ∧
    (shutdownDrain (fun t => t) (flatStart incBody 5 4 0).1).shared = 5 :=
  ⟨by decide,
    (destructor_drains_outstanding 5 4 (fun t => t) (by decide)).2.1⟩

end TileDB
